import Mathlib

/-!
# Transition blending of the SAM parameter renderer

A shallow embedding of `render/createtransitions.go` (package `render`):
the parameter store accessors `Read` and `Write`, the linear ramp writer
`interpolate`, the pitch variant `interpolate_pitch` and the scheduler
`CreateTransitions`.

Bytes are natural numbers below 256; every byte operation of the source
is followed here by an explicit `% 256`.  A run-time panic of the Go
program (integer division by zero, index out of range) is a value of
`Fault`, and so is the exhaustion of the fuel that bounds the scheduler's
`for` loop.
-/

namespace Sam

/-- The ways a call can fail to return: the two run-time panics the source
can raise, and the exhaustion of the fuel given to an unbounded loop. -/
inductive Fault where
  | divideByZero
  | indexOutOfRange
  | outOfFuel
  deriving DecidableEq, Repr

/-- Modelled from the spec: the constant `PhonemeEnd` is declared outside
`createtransitions.go`; the spec gives the sentinel as 255 and the source
comments it as `255 == end_token`. -/
def PhonemeEnd : Nat := 255

/-- Modelled from the spec: the declaration of `Render` is outside
`createtransitions.go`.  The seven parameter tables are byte arrays
addressed by an 8-bit frame index (256 entries each), here functions from
the frame index to the byte stored there.  `PhonemeIndexOutput` and
`PhonemeLengthOutput` are arrays of a capacity the source does not show,
here lists; indexing past the end is the Go index-out-of-range panic. -/
structure Render where
  pitches : Nat → Nat
  frequency1 : Nat → Nat
  frequency2 : Nat → Nat
  frequency3 : Nat → Nat
  amplitude1 : Nat → Nat
  amplitude2 : Nat → Nat
  amplitude3 : Nat → Nat
  PhonemeIndexOutput : List Nat
  PhonemeLengthOutput : List Nat

/-- Modelled from the spec: the tables `blendRank`, `inBlendLength` and
`outBlendLength` are package variables declared outside
`createtransitions.go`: static phoneme-indexed byte tables, taken here as a
parameter of the scheduler. -/
structure BlendTables where
  blendRank : List Nat
  inBlendLength : List Nat
  outBlendLength : List Nat

/-- Go indexing `xs[i]` of a byte array: the entry, or the
index-out-of-range panic. -/
def index (xs : List Nat) (i : Nat) : Except Fault Nat :=
  match xs[i]? with
  | some v => .ok v
  | none => .error .indexOutOfRange

/-- Assignment `t[Y] = value` to one parameter table. -/
def setAt (t : Nat → Nat) (Y value : Nat) : Nat → Nat :=
  fun i => if i = Y then value else t i

/-- Method `Render.Read`: the byte of table `p` at frame `Y`; 0 for a selector
outside 168..174 (the diagnostic print is not modelled). -/
def Render.Read (r : Render) (p Y : Nat) : Nat :=
  if p = 168 then r.pitches Y
  else if p = 169 then r.frequency1 Y
  else if p = 170 then r.frequency2 Y
  else if p = 171 then r.frequency3 Y
  else if p = 172 then r.amplitude1 Y
  else if p = 173 then r.amplitude2 Y
  else if p = 174 then r.amplitude3 Y
  else 0

/-- Method `Render.Write`: store `value` in table `p` at frame `Y`; no store for a
selector outside 168..174 (the diagnostic print is not modelled). -/
def Render.Write (r : Render) (p Y value : Nat) : Render :=
  if p = 168 then { r with pitches := setAt r.pitches Y value }
  else if p = 169 then { r with frequency1 := setAt r.frequency1 Y value }
  else if p = 170 then { r with frequency2 := setAt r.frequency2 Y value }
  else if p = 171 then { r with frequency3 := setAt r.frequency3 Y value }
  else if p = 172 then { r with amplitude1 := setAt r.amplitude1 Y value }
  else if p = 173 then { r with amplitude2 := setAt r.amplitude2 Y value }
  else if p = 174 then { r with amplitude3 := setAt r.amplitude3 Y value }
  else r

/-- Conversion `int8(b)` of a byte: its two's-complement reading. -/
def int8 (b : Nat) : Int :=
  if b < 128 then (b : Int) else (b : Int) - 256

/-- Conversion `byte(x)` of a signed value: its low eight bits. -/
def byteOfInt (x : Int) : Nat :=
  (x % 256).toNat

/-- Function `abs` on `int8`: the negation is an `int8` negation, so `abs (-128)` is
`-128`. -/
def abs (x : Int) : Int :=
  if x < 0 then int8 (byteOfInt (-x)) else x

/-- The `for pos > 0` loop of `interpolate`, by the number `pos` of steps
still to run; the arguments after it are `intError`, `frame`, `val` and the
store. -/
def interpolate.loop (width table : Nat) (sign : Bool) (remainder div : Nat) :
    Nat → Nat → Nat → Nat → Render → Render
  | 0, _, _, _, r => r
  | pos + 1, intError, frame, val, r =>
    let intError := (intError + remainder) % 256
    let carry := decide (intError ≥ width)
    let intError := if carry then (intError + 256 - width) % 256 else intError
    let val :=
      if carry then
        if sign then (val + 255) % 256
        else if val ≠ 0 then (val + 1) % 256
        else val
      else val
    let frame := (frame + 1) % 256
    let r := r.Write table frame val
    interpolate.loop width table sign remainder div pos intError frame ((val + div) % 256) r

/-- Method `Render.interpolate`: the linear ramp writer.  The modulo by `width`
panics when `width` is 0. -/
def Render.interpolate (r : Render) (width table frame mem53 : Nat) : Except Fault Render :=
  if width = 0 then .error .divideByZero
  else
    let sign := decide (int8 mem53 < 0)
    let remainder := byteOfInt (abs (int8 mem53)) % width
    let div := byteOfInt ((int8 mem53).tdiv (width : Int))
    let val := (r.Read table frame + div) % 256
    .ok (interpolate.loop width table sign remainder div (width - 1) 0 frame val r)

/-- Method `Render.interpolate_pitch`: the pitch ramp from the middle of the
current phoneme to the middle of the next one.  The `width` argument is
overwritten before it is read. -/
def Render.interpolate_pitch (r : Render) ( _width pos mem49 phase3 : Nat) : Except Fault Render := do
  let cur_width := (← index r.PhonemeLengthOutput pos) / 2
  let next_width := (← index r.PhonemeLengthOutput ((pos + 1) % 256)) / 2
  let width := (cur_width + next_width) % 256
  let pitch : Int := (r.pitches ((next_width + mem49) % 256) : Int)
    - (r.pitches ((mem49 + 256 - cur_width) % 256) : Int)
  r.interpolate width 168 phase3 (byteOfInt pitch)

/-- The rank comparison of `CreateTransitions` (the two `blendRank` look-ups
and the `if` chain that follows them): the pair `(phase1, phase2)` for the boundary
between `phoneme` and `next_phoneme`. -/
def blendPhases (T : BlendTables) (phoneme next_phoneme : Nat) : Except Fault (Nat × Nat) := do
  let next_rank ← index T.blendRank next_phoneme
  let rank ← index T.blendRank phoneme
  if rank = next_rank then do
    let phase1 ← index T.outBlendLength phoneme
    let phase2 ← index T.outBlendLength next_phoneme
    pure (phase1, phase2)
  else if rank < next_rank then do
    let phase1 ← index T.inBlendLength next_phoneme
    let phase2 ← index T.outBlendLength next_phoneme
    pure (phase1, phase2)
  else do
    let phase1 ← index T.outBlendLength phoneme
    let phase2 ← index T.inBlendLength phoneme
    pure (phase1, phase2)

/-- The range guard `((transition - 2) & 128) == 0` on bytes. -/
def rangeGuard (transition : Nat) : Bool :=
  decide (((transition + 256 - 2) % 256) &&& 128 = 0)

/-- The tables visited by `for table := byte(169); table < 175; table++`. -/
def formantTables : List Nat := [169, 170, 171, 172, 173, 174]

/-- The body of the loop over the formant tables, run over the tables still
to visit. -/
def formants (transition speedcounter phase3 : Nat) : List Nat → Render → Except Fault Render
  | [], r => .ok r
  | table :: rest, r => do
    let value := (r.Read table speedcounter + 256 - r.Read table phase3) % 256
    let r ← r.interpolate transition table phase3 value
    formants transition speedcounter phase3 rest r

/-- The local variables `mem49` and `pos` of `CreateTransitions` together
with the store. -/
structure Locals where
  r : Render
  mem49 : Nat
  pos : Nat

/-- The part of the loop body of `CreateTransitions` that follows the choice
of `phase1` and `phase2`: `mem49` advances by the length of the current
phoneme, the window is computed, the ramps are written when the range guard
passes, and `pos` is incremented. -/
def blend (s : Locals) (phase1 phase2 : Nat) : Except Fault Locals := do
  let len ← index s.r.PhonemeLengthOutput s.pos
  let mem49 := (s.mem49 + len) % 256
  let speedcounter := (mem49 + phase2) % 256
  let phase3 := (mem49 + 256 - phase1) % 256
  let transition := (phase1 + phase2) % 256
  if rangeGuard transition then do
    let r ← s.r.interpolate_pitch transition s.pos mem49 phase3
    let r ← formants transition speedcounter phase3 formantTables r
    pure { r := r, mem49 := mem49, pos := (s.pos + 1) % 256 }
  else
    pure { r := s.r, mem49 := mem49, pos := (s.pos + 1) % 256 }

/-- One pass through the body of the `for` loop of `CreateTransitions`:
`none` is the `break` at the sentinel, `some` the locals after `pos++`. -/
def body (T : BlendTables) (s : Locals) : Except Fault (Option Locals) := do
  let phoneme ← index s.r.PhonemeIndexOutput s.pos
  let next_phoneme ← index s.r.PhonemeIndexOutput ((s.pos + 1) % 256)
  if next_phoneme = PhonemeEnd then pure none
  else do
    let (phase1, phase2) ← blendPhases T phoneme next_phoneme
    let s ← blend s phase1 phase2
    pure (some s)

/-- What a completed call of `CreateTransitions` leaves: the byte it
returns, the value of `pos` at the `break` (the number of passes through the
loop body, as a byte) and the store. -/
structure Final where
  total : Nat
  pos : Nat
  r : Render

/-- The `for` loop of `CreateTransitions` and the return that follows it,
bounded by `fuel` passes. -/
def loop (T : BlendTables) : Nat → Locals → Except Fault Final
  | 0, _ => .error .outOfFuel
  | fuel + 1, s =>
    match body T s with
    | .error e => .error e
    | .ok none =>
      match index s.r.PhonemeLengthOutput s.pos with
      | .error e => .error e
      | .ok len => .ok { total := (s.mem49 + len) % 256, pos := s.pos, r := s.r }
    | .ok (some s1) => loop T fuel s1

/-- Method `Render.CreateTransitions`: `mem49` and `pos` start at 0. -/
def Render.CreateTransitions (r : Render) (T : BlendTables) (fuel : Nat) : Except Fault Final :=
  loop T fuel { r := r, mem49 := 0, pos := 0 }

/-- The pitch interpolation in the words of the specification (a second
definition, to be compared with `Render.interpolate_pitch`): with
`curHalf` and `nextHalf` the halved lengths of the phonemes at `pos` and
`pos + 1`, the generic ramp is run on the pitch channel from `phaseStart`
with width `curHalf + nextHalf` and delta
`pitch[elapsedFrames + nextHalf] - pitch[elapsedFrames - curHalf]`, the
subtraction and the frame arithmetic wrapping at 8 bits. -/
def interpolatePitchSpec (r : Render) (pos elapsedFrames phaseStart : Nat) :
    Except Fault Render := do
  let curHalf := (← index r.PhonemeLengthOutput pos) / 2
  let nextHalf := (← index r.PhonemeLengthOutput ((pos + 1) % 256)) / 2
  let width := (curHalf + nextHalf) % 256
  let delta := (r.Read 168 ((elapsedFrames + nextHalf) % 256) + 256
    - r.Read 168 ((elapsedFrames + 256 - curHalf) % 256)) % 256
  r.interpolate width 168 phaseStart delta

/-! ## Inputs used to evaluate the code -/

/-- A step profile: 20 up to frame 9, 60 on frames 10..17, 30 from frame 18. -/
def stepProfile (i : Nat) : Nat :=
  if i < 10 then 20 else if i < 18 then 60 else 30

/-- A store holding three phonemes of lengths 10, 8 and 12 followed by the
sentinel. -/
def sampleRender : Render where
  pitches := fun _ => 64
  frequency1 := stepProfile
  frequency2 := fun _ => 0
  frequency3 := fun i => i
  amplitude1 := fun i => 255 - i
  amplitude2 := fun _ => 7
  amplitude3 := fun _ => 1
  PhonemeIndexOutput := [0, 1, 2, 255]
  PhonemeLengthOutput := [10, 8, 12, 0]

/-- Blend tables giving the three phonemes of `sampleRender` one rank. -/
def sampleTables : BlendTables where
  blendRank := [5, 5, 5]
  inBlendLength := [1, 1, 1]
  outBlendLength := [2, 3, 4]

/-- Blend tables in which phoneme 0 has the lower rank value. -/
def rankedTables : BlendTables where
  blendRank := [1, 2]
  inBlendLength := [1, 2]
  outBlendLength := [3, 4]

/-- A store holding phonemes 0 and 1, of length 10 each, followed by the
sentinel. -/
def twoPhonemes : Render where
  pitches := fun _ => 64
  frequency1 := stepProfile
  frequency2 := fun _ => 0
  frequency3 := fun _ => 0
  amplitude1 := fun _ => 0
  amplitude2 := fun _ => 0
  amplitude3 := fun _ => 0
  PhonemeIndexOutput := [0, 1, 255]
  PhonemeLengthOutput := [10, 10, 0]

/-- Blend tables whose out-blend lengths give the first boundary of
`sampleRender` the transition width 1. -/
def degenerateTables : BlendTables where
  blendRank := [5, 5, 5]
  inBlendLength := [1, 1, 1]
  outBlendLength := [0, 1, 255]

/-- A store holding two phonemes of length 1 each, followed by the
sentinel. -/
def shortPhonemes : Render where
  pitches := fun _ => 64
  frequency1 := stepProfile
  frequency2 := fun _ => 0
  frequency3 := fun _ => 0
  amplitude1 := fun _ => 0
  amplitude2 := fun _ => 0
  amplitude3 := fun _ => 0
  PhonemeIndexOutput := [0, 1, 255]
  PhonemeLengthOutput := [1, 1, 0]

/-- The store `sampleRender` with the step profile in the pitch table. -/
def pitchStep : Render :=
  { sampleRender with pitches := stepProfile }

/-- A store holding the single phoneme 7, of length 10, followed by the
sentinel. -/
def singlePhoneme : Render :=
  { sampleRender with PhonemeIndexOutput := [7, 255], PhonemeLengthOutput := [10, 0] }

/-- The update of `intError` in one step of the loop of `interpolate`: the
remainder is added in 8 bits, and the width is taken off when the sum has
reached it. -/
def intErrorStep (width remainder intError : Nat) : Nat :=
  if (intError + remainder) % 256 ≥ width then ((intError + remainder) % 256 + 256 - width) % 256
  else (intError + remainder) % 256

/-- The value written by one step of the loop of `interpolate`: `val` with
the rounding correction of this step applied. -/
def valStep (width : Nat) (sign : Bool) (remainder intError val : Nat) : Nat :=
  if (intError + remainder) % 256 ≥ width then
    if sign then (val + 255) % 256
    else if val ≠ 0 then (val + 1) % 256
    else val
  else val

/-! ## Look-ups and the parameter store -/

theorem index_eq_ok {xs : List Nat} {i v : Nat} (h : xs[i]? = some v) :
    index xs i = .ok v := by
  simp [index, h]

theorem index_cases (xs : List Nat) (i : Nat) :
    index xs i = .error .indexOutOfRange ∨ ∃ v, xs[i]? = some v ∧ index xs i = .ok v := by
  unfold index
  cases h : xs[i]? with
  | none => exact Or.inl rfl
  | some v => exact Or.inr ⟨v, rfl, rfl⟩

theorem Read_Write_self (r : Render) (p Y v Z : Nat) (hp : 168 ≤ p ∧ p ≤ 174) :
    (r.Write p Y v).Read p Z = if Z = Y then v else r.Read p Z := by
  obtain ⟨h1, h2⟩ := hp
  interval_cases p <;> simp [Render.Write, Render.Read, setAt]

theorem Read_Write_ne (r : Render) (p q Y v Z : Nat) (hpq : q ≠ p) :
    (r.Write p Y v).Read q Z = r.Read q Z := by
  unfold Render.Write
  split_ifs <;> subst_vars <;> simp_all [Render.Read]

theorem Write_PhonemeIndexOutput (r : Render) (p Y v : Nat) :
    (r.Write p Y v).PhonemeIndexOutput = r.PhonemeIndexOutput := by
  unfold Render.Write
  split_ifs <;> rfl

theorem Write_PhonemeLengthOutput (r : Render) (p Y v : Nat) :
    (r.Write p Y v).PhonemeLengthOutput = r.PhonemeLengthOutput := by
  unfold Render.Write
  split_ifs <;> rfl

/-! ## The range guard -/

set_option maxRecDepth 100000 in
theorem rangeGuard_iff_aux : ∀ w, w < 256 → (rangeGuard w = true ↔ (2 ≤ w ∧ w ≤ 129)) := by
  decide

set_option maxRecDepth 100000 in
theorem testBit_seven_aux : ∀ x, x < 256 → (x.testBit 7 = true ↔ x &&& 128 ≠ 0) := by
  decide

theorem rangeGuard_false_of_degenerate (w : Nat) (hw : w < 256)
    (h : w = 0 ∨ w = 1 ∨ ((w + 256 - 2) % 256).testBit 7 = true) :
    rangeGuard w = false := by
  rcases h with h | h | h
  · subst h; decide
  · subst h; decide
  · have h2 := (testBit_seven_aux ((w + 256 - 2) % 256) (Nat.mod_lt _ (by decide))).1 h
    unfold rangeGuard
    exact decide_eq_false h2

theorem Read_Write_of_ne_frame (r : Render) (p q Y v Z : Nat) (hZ : Z ≠ Y) :
    (r.Write p Y v).Read q Z = r.Read q Z := by
  unfold Render.Write
  split_ifs <;> simp [Render.Read, setAt, hZ]

theorem Read_Write_congr (r1 r2 : Render) (p Y v Z : Nat)
    (h : r1.Read p Z = r2.Read p Z) :
    (r1.Write p Y v).Read p Z = (r2.Write p Y v).Read p Z := by
  by_cases hp : 168 ≤ p ∧ p ≤ 174
  · rw [Read_Write_self r1 p Y v Z hp, Read_Write_self r2 p Y v Z hp, h]
  · unfold Render.Write
    split_ifs <;> first | omega

theorem loop_PhonemeIndexOutput (width table : Nat) (sign : Bool) (remainder div : Nat) :
    ∀ (n intError frame val : Nat) (r : Render),
      (interpolate.loop width table sign remainder div n intError frame val r).PhonemeIndexOutput
        = r.PhonemeIndexOutput := by
  intro n
  induction n with
  | zero => intros; rfl
  | succ n ih =>
    intro intError frame val r
    simp only [interpolate.loop]
    rw [ih, Write_PhonemeIndexOutput]

theorem loop_PhonemeLengthOutput (width table : Nat) (sign : Bool) (remainder div : Nat) :
    ∀ (n intError frame val : Nat) (r : Render),
      (interpolate.loop width table sign remainder div n intError frame val r).PhonemeLengthOutput
        = r.PhonemeLengthOutput := by
  intro n
  induction n with
  | zero => intros; rfl
  | succ n ih =>
    intro intError frame val r
    simp only [interpolate.loop]
    rw [ih, Write_PhonemeLengthOutput]

theorem loop_Read_ne (width table : Nat) (sign : Bool) (remainder div q Z : Nat)
    (hq : q ≠ table) :
    ∀ (n intError frame val : Nat) (r : Render),
      (interpolate.loop width table sign remainder div n intError frame val r).Read q Z
        = r.Read q Z := by
  intro n
  induction n with
  | zero => intros; rfl
  | succ n ih =>
    intro intError frame val r
    simp only [interpolate.loop]
    rw [ih, Read_Write_ne _ _ _ _ _ _ hq]

theorem loop_Read_outside (width table : Nat) (sign : Bool) (remainder div q Z : Nat) :
    ∀ (n intError frame val : Nat) (r : Render),
      (∀ k, 1 ≤ k → k ≤ n → Z ≠ (frame + k) % 256) →
      (interpolate.loop width table sign remainder div n intError frame val r).Read q Z
        = r.Read q Z := by
  intro n
  induction n with
  | zero => intros; rfl
  | succ n ih =>
    intro intError frame val r hZ
    simp only [interpolate.loop]
    rw [ih, Read_Write_of_ne_frame]
    · exact hZ 1 (le_refl 1) (by omega)
    · intro k hk1 hkn
      have := hZ (k + 1) (by omega) (by omega)
      have e : ((frame + 1) % 256 + k) % 256 = (frame + (k + 1)) % 256 := by omega
      rw [e]; exact this

theorem loop_Read_congr (width table : Nat) (sign : Bool) (remainder div Z : Nat) :
    ∀ (n intError frame val : Nat) (r1 r2 : Render),
      r1.Read table Z = r2.Read table Z →
      (interpolate.loop width table sign remainder div n intError frame val r1).Read table Z
        = (interpolate.loop width table sign remainder div n intError frame val r2).Read table Z := by
  intro n
  induction n with
  | zero => intro _ _ _ r1 r2 h; exact h
  | succ n ih =>
    intro intError frame val r1 r2 h
    simp only [interpolate.loop]
    exact ih _ _ _ _ _ (Read_Write_congr r1 r2 _ _ _ _ h)

theorem loop_Read_window (width table : Nat) (sign : Bool) (remainder div : Nat)
    (ht : 168 ≤ table ∧ table ≤ 174) :
    ∀ (n intError frame val : Nat) (r1 r2 : Render) (k : Nat), 1 ≤ k → k ≤ n →
      (interpolate.loop width table sign remainder div n intError frame val r1).Read table
          ((frame + k) % 256)
        = (interpolate.loop width table sign remainder div n intError frame val r2).Read table
          ((frame + k) % 256) := by
  intro n
  induction n with
  | zero => intro _ _ _ _ _ k h1 h2; omega
  | succ n ih =>
    intro intError frame val r1 r2 k hk1 hkn
    simp only [interpolate.loop]
    by_cases hk : k = 1
    · subst hk
      apply loop_Read_congr
      rw [Read_Write_self _ _ _ _ _ ht, Read_Write_self _ _ _ _ _ ht, if_pos rfl, if_pos rfl]
    · have e : (frame + k) % 256 = ((frame + 1) % 256 + (k - 1)) % 256 := by omega
      rw [e]
      exact ih _ _ _ _ _ (k - 1) (by omega) (by omega)

theorem body_of_boundary (T : BlendTables) (s : Locals) (phoneme next_phoneme phase1 phase2 : Nat)
    (h1 : s.r.PhonemeIndexOutput[s.pos]? = some phoneme)
    (h2 : s.r.PhonemeIndexOutput[(s.pos + 1) % 256]? = some next_phoneme)
    (h3 : next_phoneme ≠ PhonemeEnd)
    (h4 : blendPhases T phoneme next_phoneme = .ok (phase1, phase2)) :
    body T s = (blend s phase1 phase2).map some := by
  unfold body
  simp only [index_eq_ok h1, index_eq_ok h2, bind, Except.bind, h3, if_false, h4]
  cases blend s phase1 phase2 <;> rfl

theorem blend_of_guard_false (s : Locals) (phase1 phase2 len : Nat)
    (hlen : s.r.PhonemeLengthOutput[s.pos]? = some len)
    (hg : rangeGuard ((phase1 + phase2) % 256) = false) :
    blend s phase1 phase2
      = .ok { r := s.r, mem49 := (s.mem49 + len) % 256, pos := (s.pos + 1) % 256 } := by
  unfold blend
  simp only [index_eq_ok hlen, bind, Except.bind, hg]
  rfl

/-- C10: a channel selector outside 168..174 reads as 0 and a write through
it leaves the whole store, all seven tables included, as it was; both are
total functions, so neither raises an error. -/
theorem Read_Write_invalid_channel (r : Render) (p Y v : Nat)
    (hp : p < 168 ∨ 174 < p) :
    r.Read p Y = 0 ∧ r.Write p Y v = r := by
  have h168 : p ≠ 168 := by omega
  have h169 : p ≠ 169 := by omega
  have h170 : p ≠ 170 := by omega
  have h171 : p ≠ 171 := by omega
  have h172 : p ≠ 172 := by omega
  have h173 : p ≠ 173 := by omega
  have h174 : p ≠ 174 := by omega
  simp [Render.Read, Render.Write, h168, h169, h170, h171, h172, h173, h174]

theorem Read_Write_invalid_channel_witness :
    (175 < 168 ∨ 174 < 175) ∧
      (sampleRender.Read 175 9 = 0 ∧ sampleRender.Write 175 9 33 = sampleRender) :=
  ⟨by decide, Read_Write_invalid_channel sampleRender 175 9 33 (by decide)⟩

/-- C1 (the code at the failing input): with `blendRank = [1, 2]`,
`inBlendLength = [1, 2]` and `outBlendLength = [3, 4]`, the boundary from
phoneme 0 to phoneme 1 (current rank lower) gets
`(phase1, phase2) = (inBlendLength[1], outBlendLength[1]) = (2, 4)`, and the
boundary from phoneme 1 to phoneme 0 (current rank higher) gets
`(outBlendLength[1], inBlendLength[1]) = (4, 2)`: in both the lengths of the
phoneme with the higher rank value are taken.  Run on two phonemes of length
10, the scheduler therefore ramps frames 9..13 of `frequency1` (frame 8 keeps
20, frame 12 becomes 46) rather than frames 8..10. -/
theorem blendPhases_unequal_rank_sample :
    blendPhases rankedTables 0 1 = .ok (2, 4) ∧
    blendPhases rankedTables 1 0 = .ok (4, 2) ∧
    ∃ f, twoPhonemes.CreateTransitions rankedTables 2 = .ok f ∧
      f.r.frequency1 8 = 20 ∧ f.r.frequency1 12 = 46 ∧ twoPhonemes.frequency1 12 = 60 :=
  ⟨rfl, rfl, _, rfl, rfl, rfl, rfl⟩

theorem interpolate_eq_ok (r : Render) (width table frame mem53 : Nat) (hw : 1 ≤ width) :
    r.interpolate width table frame mem53
      = .ok (interpolate.loop width table (decide (int8 mem53 < 0))
          (byteOfInt (abs (int8 mem53)) % width) (byteOfInt ((int8 mem53).tdiv (width : Int)))
          (width - 1) 0 frame
          ((r.Read table frame + byteOfInt ((int8 mem53).tdiv (width : Int))) % 256) r) := by
  have h : width ≠ 0 := by omega
  simp [Render.interpolate, h]

/-- C4: at a boundary whose transition width `(phase1 + phase2) % 256` is 0,
is 1, or has bit 7 of `(width - 2) mod 256` set, the pass through the loop
body returns the store it was given (all seven tables untouched); `mem49`
advances by the length of the current phoneme and `pos` by one. -/
theorem body_degenerate_width (T : BlendTables) (s : Locals)
    (phoneme next_phoneme phase1 phase2 len : Nat)
    (hcur : s.r.PhonemeIndexOutput[s.pos]? = some phoneme)
    (hnext : s.r.PhonemeIndexOutput[(s.pos + 1) % 256]? = some next_phoneme)
    (hend : next_phoneme ≠ PhonemeEnd)
    (hphase : blendPhases T phoneme next_phoneme = .ok (phase1, phase2))
    (hlen : s.r.PhonemeLengthOutput[s.pos]? = some len)
    (hw : (phase1 + phase2) % 256 = 0 ∨ (phase1 + phase2) % 256 = 1 ∨
      (((phase1 + phase2) % 256 + 256 - 2) % 256).testBit 7 = true) :
    body T s
      = .ok (some { r := s.r, mem49 := (s.mem49 + len) % 256, pos := (s.pos + 1) % 256 }) := by
  have hg := rangeGuard_false_of_degenerate ((phase1 + phase2) % 256)
    (Nat.mod_lt _ (by decide)) hw
  rw [body_of_boundary T s phoneme next_phoneme phase1 phase2 hcur hnext hend hphase,
    blend_of_guard_false s phase1 phase2 len hlen hg]
  rfl

theorem body_degenerate_width_witness :
    body degenerateTables { r := sampleRender, mem49 := 0, pos := 0 }
      = .ok (some { r := sampleRender, mem49 := 10, pos := 1 }) :=
  body_degenerate_width degenerateTables { r := sampleRender, mem49 := 0, pos := 0 }
    0 1 0 1 10 rfl rfl (by decide) rfl rfl (by decide)

/-- C7: for a valid channel `c`, a start frame `F` and a width from 1 to
255, `interpolate` returns a store in which channel `c` differs from the
old one at most on the frames `F+1 .. F+width-1` (mod 256): every other
entry of `c`, the entry at `F` included, every other table and the two
phoneme arrays are unchanged.  Each frame of that window is overwritten: its
new content depends on the old store only through the value at `F`. -/
theorem interpolate_frame (r : Render) (width c F delta : Nat)
    (hc : 168 ≤ c ∧ c ≤ 174) (hw : 1 ≤ width) (hw' : width ≤ 255) :
    ∃ r', r.interpolate width c F delta = .ok r' ∧
      (∀ Z, (∀ k, 1 ≤ k → k < width → Z ≠ (F + k) % 256) → r'.Read c Z = r.Read c Z) ∧
      r'.Read c F = r.Read c F ∧
      (∀ q Z, q ≠ c → r'.Read q Z = r.Read q Z) ∧
      r'.PhonemeIndexOutput = r.PhonemeIndexOutput ∧
      r'.PhonemeLengthOutput = r.PhonemeLengthOutput ∧
      (∀ r2 : Render, r2.Read c F = r.Read c F →
        ∃ r2', r2.interpolate width c F delta = .ok r2' ∧
          ∀ k, 1 ≤ k → k < width → r2'.Read c ((F + k) % 256) = r'.Read c ((F + k) % 256)) := by
  refine ⟨_, interpolate_eq_ok r width c F delta hw, ?_, ?_, ?_, ?_, ?_, ?_⟩
  · intro Z hZ
    exact loop_Read_outside _ _ _ _ _ _ _ _ _ _ _ _ (fun k h1 h2 => hZ k h1 (by omega))
  · apply loop_Read_outside
    intro k h1 h2
    omega
  · intro q Z hq
    exact loop_Read_ne _ _ _ _ _ _ _ hq _ _ _ _ _
  · exact loop_PhonemeIndexOutput _ _ _ _ _ _ _ _ _ _
  · exact loop_PhonemeLengthOutput _ _ _ _ _ _ _ _ _ _
  · intro r2 h2
    refine ⟨_, interpolate_eq_ok r2 width c F delta hw, ?_⟩
    intro k hk1 hk2
    rw [h2]
    exact loop_Read_window _ _ _ _ _ hc _ _ _ _ _ _ k hk1 (by omega)

theorem interpolate_frame_witness :
    ∃ r', sampleRender.interpolate 5 169 8 40 = .ok r' ∧
      (∀ Z, (∀ k, 1 ≤ k → k < 5 → Z ≠ (8 + k) % 256) →
        r'.Read 169 Z = sampleRender.Read 169 Z) ∧
      r'.Read 169 8 = sampleRender.Read 169 8 ∧
      (∀ q Z, q ≠ 169 → r'.Read q Z = sampleRender.Read q Z) ∧
      r'.PhonemeIndexOutput = sampleRender.PhonemeIndexOutput ∧
      r'.PhonemeLengthOutput = sampleRender.PhonemeLengthOutput ∧
      (∀ r2 : Render, r2.Read 169 8 = sampleRender.Read 169 8 →
        ∃ r2', r2.interpolate 5 169 8 40 = .ok r2' ∧
          ∀ k, 1 ≤ k → k < 5 → r2'.Read 169 ((8 + k) % 256) = r'.Read 169 ((8 + k) % 256)) :=
  interpolate_frame sampleRender 5 169 8 40 (by decide) (by decide) (by decide)

theorem byteOfInt_abs_int8 (delta : Nat) (hd : delta < 256) :
    byteOfInt (abs (int8 delta)) = (int8 delta).natAbs := by
  unfold abs int8 byteOfInt
  split_ifs <;> omega

theorem loop_succ_exact (width table : Nat) (sign : Bool) (div n frame val : Nat) (r : Render)
    (hw : 1 ≤ width) :
    interpolate.loop width table sign 0 div (n + 1) 0 frame val r
      = interpolate.loop width table sign 0 div n 0 ((frame + 1) % 256) ((val + div) % 256)
          (r.Write table ((frame + 1) % 256) val) := by
  have h : ¬ (width ≤ 0) := by omega
  simp [interpolate.loop, h]

theorem loop_Read_exact (width table : Nat) (sign : Bool) (div : Nat)
    (ht : 168 ≤ table ∧ table ≤ 174) (hw : 1 ≤ width) :
    ∀ (n frame val : Nat) (r : Render) (k : Nat), n ≤ 255 → val < 256 → 1 ≤ k → k ≤ n →
      (interpolate.loop width table sign 0 div n 0 frame val r).Read table ((frame + k) % 256)
        = (val + (k - 1) * div) % 256 := by
  intro n
  induction n with
  | zero => intro _ _ _ k _ _ h1 h2; omega
  | succ n ih =>
    intro frame val r k hn hv hk1 hkn
    rw [loop_succ_exact _ _ _ _ _ _ _ _ hw]
    by_cases hk : k = 1
    · subst hk
      rw [loop_Read_outside, Read_Write_self _ _ _ _ _ ht, if_pos rfl]
      · simp; omega
      · intro j hj1 hjn
        omega
    · obtain ⟨m, rfl⟩ : ∃ m, k = m + 2 := ⟨k - 2, by omega⟩
      have e : (frame + (m + 2)) % 256 = ((frame + 1) % 256 + (m + 1)) % 256 := by omega
      rw [e, ih _ _ _ (m + 1) (by omega) (Nat.mod_lt _ (by decide)) (by omega) (by omega)]
      have e2 : (m + 2 - 1) * div = m * div + div := by
        rw [show m + 2 - 1 = m + 1 by omega, Nat.succ_mul]
      have e3 : (m + 1 - 1) * div = m * div := by
        rw [show m + 1 - 1 = m by omega]
      rw [e2, e3]
      omega

theorem ramp_value_cast (B k : Nat) (t : Int) (hk : 1 ≤ k) :
    ((((B + byteOfInt t) % 256 + (k - 1) * byteOfInt t) % 256 : Nat) : Int)
      = ((B : Int) + k * t) % 256 := by
  obtain ⟨m, rfl⟩ : ∃ m, k = m + 1 := ⟨k - 1, by omega⟩
  have hd : ((byteOfInt t : Nat) : Int) = t % 256 := by
    unfold byteOfInt
    exact Int.toNat_of_nonneg (Int.emod_nonneg _ (by decide))
  have h1 : ((B + byteOfInt t) % 256 + (m + 1 - 1) * byteOfInt t) % 256
      = (B + (m + 1) * byteOfInt t) % 256 := by
    rw [show m + 1 - 1 = m by omega, Nat.succ_mul]
    omega
  rw [h1]
  push_cast
  rw [hd]
  have h2 : t = t % 256 + 256 * (t / 256) := (Int.emod_add_ediv t 256).symm
  have h3 : (B : Int) + ((m : Int) + 1) * t
      = (B : Int) + ((m : Int) + 1) * (t % 256) + 256 * (((m : Int) + 1) * (t / 256)) := by
    conv_lhs => rw [h2]
    ring
  rw [h3, Int.add_mul_emod_self_left]

theorem loop_succ_zero (width table remainder n intError frame : Nat) (r : Render) :
    ∃ e, interpolate.loop width table false remainder 0 (n + 1) intError frame 0 r
      = interpolate.loop width table false remainder 0 n e ((frame + 1) % 256) 0
          (r.Write table ((frame + 1) % 256) 0) := by
  refine ⟨if decide ((intError + remainder) % 256 ≥ width) = true
    then ((intError + remainder) % 256 + 256 - width) % 256
    else (intError + remainder) % 256, ?_⟩
  simp [interpolate.loop]

theorem loop_Read_zero_keep (width table remainder Z : Nat) :
    ∀ (n intError frame : Nat) (r : Render), r.Read table Z = 0 →
      (interpolate.loop width table false remainder 0 n intError frame 0 r).Read table Z = 0 := by
  intro n
  induction n with
  | zero => intro _ _ r h; exact h
  | succ n ih =>
    intro intError frame r h
    obtain ⟨e, he⟩ := loop_succ_zero width table remainder n intError frame r
    rw [he]
    apply ih
    by_cases ht : 168 ≤ table ∧ table ≤ 174
    · rw [Read_Write_self _ _ _ _ _ ht]
      split_ifs
      · rfl
      · exact h
    · have hi : table < 168 ∨ 174 < table := by omega
      have h168 : table ≠ 168 := by omega
      have h169 : table ≠ 169 := by omega
      have h170 : table ≠ 170 := by omega
      have h171 : table ≠ 171 := by omega
      have h172 : table ≠ 172 := by omega
      have h173 : table ≠ 173 := by omega
      have h174 : table ≠ 174 := by omega
      simp [Render.Read, h168, h169, h170, h171, h172, h173, h174]

theorem loop_Read_zero (width table remainder : Nat) (ht : 168 ≤ table ∧ table ≤ 174) :
    ∀ (n intError frame : Nat) (r : Render) (k : Nat), 1 ≤ k → k ≤ n →
      (interpolate.loop width table false remainder 0 n intError frame 0 r).Read table
        ((frame + k) % 256) = 0 := by
  intro n
  induction n with
  | zero => intro _ _ _ k h1 h2; omega
  | succ n ih =>
    intro intError frame r k hk1 hkn
    obtain ⟨e, he⟩ := loop_succ_zero width table remainder n intError frame r
    rw [he]
    by_cases hk : k = 1
    · subst hk
      apply loop_Read_zero_keep
      rw [Read_Write_self _ _ _ _ _ ht, if_pos rfl]
    · have e' : (frame + k) % 256 = ((frame + 1) % 256 + (k - 1)) % 256 := by omega
      rw [e']
      exact ih _ _ _ (k - 1) (by omega) (by omega)

/-- C5: for a valid channel, a width from 1 to 255 and a delta whose
magnitude (as a signed byte) is an exact multiple of the width,
`interpolate` leaves at frame `F+k` (mod 256), for every `k` in
`1..width-1`, the value `base + k*(delta/width)` mod 256, `base` being the
channel's value at `F` before the call.  In particular with width 5 and
delta 10 the frames `F+1 .. F+4` hold `base+2`, `base+4`, `base+6` and
`base+8` (mod 256). -/
theorem interpolate_exact_ramp (r : Render) (width c F delta : Nat)
    (hc : 168 ≤ c ∧ c ≤ 174) (hw : 1 ≤ width) (hw' : width ≤ 255) (hd : delta < 256)
    (hrem : (int8 delta).natAbs % width = 0) :
    (∃ r', r.interpolate width c F delta = .ok r' ∧
      ∀ k, 1 ≤ k → k < width →
        ((r'.Read c ((F + k) % 256) : Nat) : Int)
          = ((r.Read c F : Int) + k * (int8 delta).tdiv width) % 256) ∧
    (∃ r', r.interpolate 5 c F 10 = .ok r' ∧
      r'.Read c ((F + 1) % 256) = (r.Read c F + 2) % 256 ∧
      r'.Read c ((F + 2) % 256) = (r.Read c F + 4) % 256 ∧
      r'.Read c ((F + 3) % 256) = (r.Read c F + 6) % 256 ∧
      r'.Read c ((F + 4) % 256) = (r.Read c F + 8) % 256) := by
  have gen : ∀ (w d : Nat), 1 ≤ w → w ≤ 255 → d < 256 → (int8 d).natAbs % w = 0 →
      ∃ r', r.interpolate w c F d = .ok r' ∧
        ∀ k, 1 ≤ k → k < w →
          ((r'.Read c ((F + k) % 256) : Nat) : Int)
            = ((r.Read c F : Int) + k * (int8 d).tdiv w) % 256 := by
    intro w d h1 h2 h3 h4
    refine ⟨_, interpolate_eq_ok r w c F d h1, ?_⟩
    intro k hk1 hk2
    rw [byteOfInt_abs_int8 d h3, h4,
      loop_Read_exact w c _ _ hc h1 _ _ _ _ k (by omega) (Nat.mod_lt _ (by decide)) hk1
        (by omega)]
    exact ramp_value_cast _ _ _ hk1
  refine ⟨gen width delta hw hw' hd hrem, ?_⟩
  obtain ⟨r', hr', hk⟩ := gen 5 10 (by decide) (by decide) (by decide) (by decide)
  have hq : (int8 10).tdiv ((5 : Nat) : Int) = 2 := by decide
  refine ⟨r', hr', ?_, ?_, ?_, ?_⟩
  · have := hk 1 (by decide) (by decide)
    rw [hq] at this
    omega
  · have := hk 2 (by decide) (by decide)
    rw [hq] at this
    omega
  · have := hk 3 (by decide) (by decide)
    rw [hq] at this
    omega
  · have := hk 4 (by decide) (by decide)
    rw [hq] at this
    omega

theorem interpolate_exact_ramp_witness :
    (∃ r', sampleRender.interpolate 4 169 8 248 = .ok r' ∧
      ∀ k, 1 ≤ k → k < 4 →
        ((r'.Read 169 ((8 + k) % 256) : Nat) : Int)
          = ((sampleRender.Read 169 8 : Int) + k * (int8 248).tdiv (4 : Nat)) % 256) ∧
    (∃ r', sampleRender.interpolate 5 169 8 10 = .ok r' ∧
      r'.Read 169 ((8 + 1) % 256) = (sampleRender.Read 169 8 + 2) % 256 ∧
      r'.Read 169 ((8 + 2) % 256) = (sampleRender.Read 169 8 + 4) % 256 ∧
      r'.Read 169 ((8 + 3) % 256) = (sampleRender.Read 169 8 + 6) % 256 ∧
      r'.Read 169 ((8 + 4) % 256) = (sampleRender.Read 169 8 + 8) % 256) :=
  interpolate_exact_ramp sampleRender 4 169 8 248 (by decide) (by decide) (by decide)
    (by decide) (by decide)

/-- C6: for a valid channel, a width of at least 1 and a non-negative signed
delta smaller than the width (so the quotient is 0), a start value 0 stays 0
on every written frame `F+1 .. F+width-1`: the ramp never increments away
from zero.  A negative delta does decrement through zero: from the start
value 0, width 3 and delta -2 (byte 254) leave 255 at frame `F+2`. -/
theorem interpolate_zero_clamp (r : Render) (width c F delta : Nat)
    (hc : 168 ≤ c ∧ c ≤ 174) (hw : 1 ≤ width) (hd : delta < 128) (hdw : delta < width)
    (hbase : r.Read c F = 0) :
    (∃ r', r.interpolate width c F delta = .ok r' ∧
      ∀ k, 1 ≤ k → k < width → r'.Read c ((F + k) % 256) = 0) ∧
    (∃ r', sampleRender.interpolate 3 170 0 254 = .ok r' ∧
      sampleRender.Read 170 0 = 0 ∧ int8 254 = -2 ∧ r'.Read 170 2 = 255) := by
  refine ⟨⟨_, interpolate_eq_ok r width c F delta hw, ?_⟩, ⟨_, rfl, rfl, rfl, rfl⟩⟩
  intro k hk1 hk2
  have h8 : int8 delta = (delta : Int) := by
    unfold int8
    rw [if_pos hd]
  have hdiv : (int8 delta).tdiv (width : Int) = 0 := by
    rw [h8]
    exact Int.tdiv_eq_zero_of_lt (by omega) (by omega)
  have hsign : decide (int8 delta < 0) = false := by
    rw [h8]
    exact decide_eq_false (by omega)
  have hz : byteOfInt 0 = 0 := rfl
  rw [hdiv, hsign, hz, hbase]
  exact loop_Read_zero width c _ hc _ _ _ _ k hk1 (by omega)

theorem interpolate_zero_clamp_witness :
    (∃ r', sampleRender.interpolate 6 170 8 5 = .ok r' ∧
      ∀ k, 1 ≤ k → k < 6 → r'.Read 170 ((8 + k) % 256) = 0) ∧
    (∃ r', sampleRender.interpolate 3 170 0 254 = .ok r' ∧
      sampleRender.Read 170 0 = 0 ∧ int8 254 = -2 ∧ r'.Read 170 2 = 255) :=
  interpolate_zero_clamp sampleRender 6 170 8 5 (by decide) (by decide) (by decide)
    (by decide) rfl

theorem byteOfInt_sub (a b : Nat) (ha : a < 256) (hb : b < 256) :
    byteOfInt ((a : Int) - (b : Int)) = (a + 256 - b) % 256 := by
  unfold byteOfInt
  omega

/-- C8: on a store whose pitch table holds bytes, `interpolate_pitch` is the
generic `interpolate` on channel 168 from `phase3`, with width
`PhonemeLengthOutput[pos]/2 + PhonemeLengthOutput[pos+1]/2` (mod 256) and
delta `pitches[mem49 + nextHalf] - pitches[mem49 - curHalf]` (mod 256), as
the specification words it (the same result, the same panics); the `width`
argument it is given has no influence. -/
theorem interpolate_pitch_refines (r : Render) (width pos mem49 phase3 : Nat)
    (hp : ∀ Y, r.pitches Y < 256) :
    r.interpolate_pitch width pos mem49 phase3 = interpolatePitchSpec r pos mem49 phase3 ∧
    ∀ width', r.interpolate_pitch width' pos mem49 phase3
      = r.interpolate_pitch width pos mem49 phase3 := by
  refine ⟨?_, fun _ => rfl⟩
  unfold Render.interpolate_pitch interpolatePitchSpec
  rcases index_cases r.PhonemeLengthOutput pos with h1 | ⟨a, _, h1⟩
  · simp [h1, bind, Except.bind]
  · rcases index_cases r.PhonemeLengthOutput ((pos + 1) % 256) with h2 | ⟨b, _, h2⟩
    · simp [h1, h2, bind, Except.bind]
    · simp only [h1, h2, bind, Except.bind]
      rw [byteOfInt_sub _ _ (hp _) (hp _), Nat.add_comm (b / 2) mem49]
      rfl

theorem interpolate_pitch_refines_witness :
    sampleRender.interpolate_pitch 5 0 10 8 = interpolatePitchSpec sampleRender 0 10 8 ∧
    ∀ width', sampleRender.interpolate_pitch width' 0 10 8
      = sampleRender.interpolate_pitch 5 0 10 8 :=
  interpolate_pitch_refines sampleRender 5 0 10 8 (fun _ => (by decide : (64 : Nat) < 256))

theorem interpolate_cases (r : Render) (width table frame mem53 : Nat) :
    r.interpolate width table frame mem53 = .error .divideByZero ∨
    ∃ r', r.interpolate width table frame mem53 = .ok r' ∧
      r'.PhonemeIndexOutput = r.PhonemeIndexOutput ∧
      r'.PhonemeLengthOutput = r.PhonemeLengthOutput := by
  by_cases hw : width = 0
  · left
    simp [Render.interpolate, hw]
  · right
    refine ⟨_, interpolate_eq_ok r width table frame mem53 (by omega), ?_, ?_⟩
    · exact loop_PhonemeIndexOutput _ _ _ _ _ _ _ _ _ _
    · exact loop_PhonemeLengthOutput _ _ _ _ _ _ _ _ _ _

theorem interpolate_pitch_cases (r : Render) (width pos mem49 phase3 : Nat) :
    (∃ e, r.interpolate_pitch width pos mem49 phase3 = .error e ∧ e ≠ .outOfFuel) ∨
    ∃ r', r.interpolate_pitch width pos mem49 phase3 = .ok r' ∧
      r'.PhonemeIndexOutput = r.PhonemeIndexOutput ∧
      r'.PhonemeLengthOutput = r.PhonemeLengthOutput := by
  unfold Render.interpolate_pitch
  rcases index_cases r.PhonemeLengthOutput pos with h1 | ⟨a, _, h1⟩
  · left
    exact ⟨.indexOutOfRange, by simp only [h1, bind, Except.bind], by decide⟩
  · rcases index_cases r.PhonemeLengthOutput ((pos + 1) % 256) with h2 | ⟨b, _, h2⟩
    · left
      exact ⟨.indexOutOfRange, by simp only [h1, h2, bind, Except.bind], by decide⟩
    · simp only [h1, h2, bind, Except.bind]
      rcases interpolate_cases r ((a / 2 + b / 2) % 256) 168 phase3
          (byteOfInt ((r.pitches ((b / 2 + mem49) % 256) : Int)
            - (r.pitches ((mem49 + 256 - a / 2) % 256) : Int))) with h | h
      · left
        exact ⟨_, h, by decide⟩
      · right
        exact h

theorem formants_cases (transition speedcounter phase3 : Nat) :
    ∀ (ts : List Nat) (r : Render),
      (∃ e, formants transition speedcounter phase3 ts r = .error e ∧ e ≠ .outOfFuel) ∨
      ∃ r', formants transition speedcounter phase3 ts r = .ok r' ∧
        r'.PhonemeIndexOutput = r.PhonemeIndexOutput ∧
        r'.PhonemeLengthOutput = r.PhonemeLengthOutput := by
  intro ts
  induction ts with
  | nil => intro r; exact Or.inr ⟨r, rfl, rfl, rfl⟩
  | cons t rest ih =>
    intro r
    unfold formants
    rcases interpolate_cases r transition t phase3
        ((r.Read t speedcounter + 256 - r.Read t phase3) % 256) with h | ⟨r1, h, hi, hl⟩
    · left
      exact ⟨.divideByZero, by simp only [h, bind, Except.bind], by decide⟩
    · simp only [h, bind, Except.bind]
      rcases ih r1 with ⟨e, he, hne⟩ | ⟨r', hr', hi', hl'⟩
      · exact Or.inl ⟨e, he, hne⟩
      · exact Or.inr ⟨r', hr', hi'.trans hi, hl'.trans hl⟩

theorem blendPhases_cases (T : BlendTables) (phoneme next_phoneme : Nat) :
    (∃ e, blendPhases T phoneme next_phoneme = .error e ∧ e ≠ .outOfFuel) ∨
    ∃ p, blendPhases T phoneme next_phoneme = .ok p := by
  unfold blendPhases
  rcases index_cases T.blendRank next_phoneme with h1 | ⟨a, _, h1⟩
  · exact Or.inl ⟨.indexOutOfRange, by simp only [h1, bind, Except.bind], by decide⟩
  rcases index_cases T.blendRank phoneme with h2 | ⟨b, _, h2⟩
  · exact Or.inl ⟨.indexOutOfRange, by simp only [h1, h2, bind, Except.bind], by decide⟩
  rcases index_cases T.outBlendLength phoneme with h3 | ⟨c, _, h3⟩ <;>
  rcases index_cases T.outBlendLength next_phoneme with h4 | ⟨d, _, h4⟩ <;>
  rcases index_cases T.inBlendLength phoneme with h5 | ⟨e, _, h5⟩ <;>
  rcases index_cases T.inBlendLength next_phoneme with h6 | ⟨f, _, h6⟩ <;>
  simp only [h1, h2, h3, h4, h5, h6, bind, Except.bind, pure, Except.pure] <;>
  split_ifs <;>
  first
    | exact Or.inr ⟨_, rfl⟩
    | exact Or.inl ⟨.indexOutOfRange, rfl, by decide⟩

theorem blend_cases (s : Locals) (phase1 phase2 : Nat) :
    (∃ e, blend s phase1 phase2 = .error e ∧ e ≠ .outOfFuel) ∨
    ∃ s' len, blend s phase1 phase2 = .ok s' ∧
      s.r.PhonemeLengthOutput[s.pos]? = some len ∧
      s'.mem49 = (s.mem49 + len) % 256 ∧ s'.pos = (s.pos + 1) % 256 ∧
      s'.r.PhonemeIndexOutput = s.r.PhonemeIndexOutput ∧
      s'.r.PhonemeLengthOutput = s.r.PhonemeLengthOutput := by
  unfold blend
  rcases index_cases s.r.PhonemeLengthOutput s.pos with h1 | ⟨len, hlen, h1⟩
  · exact Or.inl ⟨.indexOutOfRange, by simp only [h1, bind, Except.bind], by decide⟩
  simp only [h1, bind, Except.bind]
  split_ifs with hg
  · rcases interpolate_pitch_cases s.r ((phase1 + phase2) % 256) s.pos ((s.mem49 + len) % 256)
        (((s.mem49 + len) % 256 + 256 - phase1) % 256) with ⟨e, he, hne⟩ | ⟨r1, h, hi, hl⟩
    · exact Or.inl ⟨e, by simp only [he], hne⟩
    · simp only [h]
      rcases formants_cases ((phase1 + phase2) % 256) (((s.mem49 + len) % 256 + phase2) % 256)
          (((s.mem49 + len) % 256 + 256 - phase1) % 256) formantTables r1
          with ⟨e, he, hne⟩ | ⟨r2, h2, hi2, hl2⟩
      · exact Or.inl ⟨e, by simp only [he], hne⟩
      · simp only [h2]
        exact Or.inr ⟨_, len, rfl, hlen, rfl, rfl, hi2.trans hi, hl2.trans hl⟩
  · exact Or.inr ⟨_, len, rfl, hlen, rfl, rfl, rfl, rfl⟩

theorem body_cases (T : BlendTables) (s : Locals) :
    (∃ e, body T s = .error e ∧ e ≠ .outOfFuel) ∨
    (body T s = .ok none ∧
      s.r.PhonemeIndexOutput[(s.pos + 1) % 256]? = some PhonemeEnd) ∨
    ∃ s' next_phoneme len, body T s = .ok (some s') ∧
      s.r.PhonemeIndexOutput[(s.pos + 1) % 256]? = some next_phoneme ∧
      next_phoneme ≠ PhonemeEnd ∧
      s.r.PhonemeLengthOutput[s.pos]? = some len ∧
      s'.mem49 = (s.mem49 + len) % 256 ∧ s'.pos = (s.pos + 1) % 256 ∧
      s'.r.PhonemeIndexOutput = s.r.PhonemeIndexOutput ∧
      s'.r.PhonemeLengthOutput = s.r.PhonemeLengthOutput := by
  unfold body
  rcases index_cases s.r.PhonemeIndexOutput s.pos with h1 | ⟨ph, _, h1⟩
  · exact Or.inl ⟨.indexOutOfRange, by simp only [h1, bind, Except.bind], by decide⟩
  rcases index_cases s.r.PhonemeIndexOutput ((s.pos + 1) % 256) with h2 | ⟨nx, hnx, h2⟩
  · exact Or.inl ⟨.indexOutOfRange, by simp only [h1, h2, bind, Except.bind], by decide⟩
  simp only [h1, h2, bind, Except.bind]
  split_ifs with hend
  · right; left
    exact ⟨rfl, by rw [hnx, hend]⟩
  · rcases blendPhases_cases T ph nx with ⟨e, he, hne⟩ | ⟨⟨p1, p2⟩, hp⟩
    · exact Or.inl ⟨e, by simp only [he], hne⟩
    · simp only [hp]
      rcases blend_cases s p1 p2 with ⟨e, he, hne⟩ | ⟨s', len, hs', hlen, hm, hpos, hi, hl⟩
      · exact Or.inl ⟨e, by simp only [he], hne⟩
      · simp only [hs']
        exact Or.inr (Or.inr ⟨s', nx, len, rfl, hnx, hend, hlen, hm, hpos, hi, hl⟩)

theorem sum_take_succ (xs : List Nat) (i v : Nat) (h : xs[i]? = some v) :
    (xs.take (i + 1)).sum = (xs.take i).sum + v := by
  rw [List.take_succ, h]
  simp

theorem loop_total_length (T : BlendTables) (idx lens : List Nat) (n : Nat) (hn : n < 256)
    (hsent : idx[(n + 1) % 256]? = some PhonemeEnd)
    (hmin : ∀ i, i < n → idx[i + 1]? ≠ some PhonemeEnd) :
    ∀ (fuel : Nat) (s : Locals), s.r.PhonemeIndexOutput = idx → s.r.PhonemeLengthOutput = lens →
      s.pos ≤ n → n - s.pos < fuel → s.mem49 = (lens.take s.pos).sum % 256 →
      (∃ e, loop T fuel s = .error e ∧ e ≠ .outOfFuel) ∨
      ∃ f, loop T fuel s = .ok f ∧ f.pos = n ∧ f.total = (lens.take (n + 1)).sum % 256 := by
  intro fuel
  induction fuel with
  | zero => intro s _ _ _ h; omega
  | succ fuel ih =>
    intro s hi hl hpos hfuel hmem
    unfold loop
    rcases body_cases T s with ⟨e, he, hne⟩ | ⟨hb, hs⟩ | ⟨s', nx, len, hb, hnx, hend, hlen, hm, hp, hi', hl'⟩
    · left
      exact ⟨e, by simp only [he], hne⟩
    · have hpn : s.pos = n := by
        by_contra hc
        have hlt : s.pos < n := by omega
        have e1 : (s.pos + 1) % 256 = s.pos + 1 := by omega
        rw [hi, e1] at hs
        exact hmin s.pos hlt hs
      simp only [hb]
      rcases index_cases s.r.PhonemeLengthOutput s.pos with h1 | ⟨len, hlen, h1⟩
      · left
        exact ⟨.indexOutOfRange, by simp only [h1], by decide⟩
      · right
        simp only [h1]
        refine ⟨_, rfl, hpn, ?_⟩
        show (s.mem49 + len) % 256 = _
        rw [hl, hpn] at hlen
        rw [sum_take_succ lens n len hlen, hmem, hpn]
        omega
    · have hlt : s.pos < n := by
        by_contra hc
        have hpn : s.pos = n := by omega
        rw [hi, hpn, hsent] at hnx
        exact hend (Option.some.inj hnx).symm
      have e1 : (s.pos + 1) % 256 = s.pos + 1 := by omega
      simp only [hb]
      apply ih s' (hi'.trans hi) (hl'.trans hl)
      · omega
      · omega
      · rw [hl] at hlen
        rw [hp, e1, sum_take_succ lens s.pos len hlen, hm, hmem]
        omega

theorem loop_needs_fuel (T : BlendTables) (idx : List Nat) (n : Nat) (hn : n < 256)
    (hmin : ∀ i, i < n → idx[i + 1]? ≠ some PhonemeEnd) :
    ∀ (fuel : Nat) (s : Locals), s.r.PhonemeIndexOutput = idx →
      s.pos + fuel ≤ n → ∀ f, loop T fuel s ≠ .ok f := by
  intro fuel
  induction fuel with
  | zero =>
    intro s _ _ f h
    simp [loop] at h
  | succ fuel ih =>
    intro s hi hfuel f
    unfold loop
    have hlt : s.pos < n := by omega
    have e1 : (s.pos + 1) % 256 = s.pos + 1 := by omega
    rcases body_cases T s with ⟨e, he, _⟩ | ⟨_, hs⟩ | ⟨s', nx, len, hb, _, _, _, _, hp, hi', _⟩
    · simp only [he]
      intro h
      cases h
    · rw [hi, e1] at hs
      exact absurd hs (hmin s.pos hlt)
    · simp only [hb]
      exact ih s' (hi'.trans hi) (by omega) f

/-- C3: when `n` (at most 255) is the smallest index for which
`PhonemeIndexOutput[n+1]` is the sentinel, a call with enough fuel never runs
out of it: it either panics or returns, and when it returns the loop body was
completed exactly `n` times (`pos` is `n` at the `break`, and no call with
fuel for only `n` entries of the body returns) and the byte returned is
`PhonemeLengthOutput[0] + ... + PhonemeLengthOutput[n]` mod 256, whatever the
tables, ranks and blend lengths are. -/
theorem CreateTransitions_total_length (T : BlendTables) (r : Render) (n fuel : Nat)
    (hn : n < 256)
    (hsent : r.PhonemeIndexOutput[(n + 1) % 256]? = some PhonemeEnd)
    (hmin : ∀ i, i < n → r.PhonemeIndexOutput[i + 1]? ≠ some PhonemeEnd)
    (hfuel : n < fuel) :
    ((∃ e, r.CreateTransitions T fuel = .error e ∧ e ≠ .outOfFuel) ∨
      ∃ f, r.CreateTransitions T fuel = .ok f ∧ f.pos = n ∧
        f.total = (r.PhonemeLengthOutput.take (n + 1)).sum % 256) ∧
    ∀ fuel', fuel' ≤ n → ∀ f, r.CreateTransitions T fuel' ≠ .ok f := by
  constructor
  · exact loop_total_length T r.PhonemeIndexOutput r.PhonemeLengthOutput n hn hsent hmin fuel
      { r := r, mem49 := 0, pos := 0 } rfl rfl (Nat.zero_le _) (by simpa using hfuel) (by simp)
  · intro fuel' hf f
    exact loop_needs_fuel T r.PhonemeIndexOutput n hn hmin fuel'
      { r := r, mem49 := 0, pos := 0 } rfl (by simpa using hf) f

theorem CreateTransitions_total_length_witness :
    (∃ f, sampleRender.CreateTransitions sampleTables 3 = .ok f ∧ f.pos = 2 ∧ f.total = 30) ∧
    ∀ fuel', fuel' ≤ 2 → ∀ f, sampleRender.CreateTransitions sampleTables fuel' ≠ .ok f := by
  have h := CreateTransitions_total_length sampleTables sampleRender 2 3 (by decide) rfl
    (by decide) (by decide)
  refine ⟨?_, h.2⟩
  rcases h.1 with ⟨e, he, _⟩ | ⟨f, hf, hp, ht⟩
  · have hok : ∃ f, sampleRender.CreateTransitions sampleTables 3 = .ok f := ⟨_, rfl⟩
    obtain ⟨f, hf⟩ := hok
    rw [hf] at he
    cases he
  · exact ⟨f, hf, hp, ht⟩

theorem interpolate_Read_congr (ra rb : Render) (width c F delta : Nat) (hw : 1 ≤ width)
    (h : ∀ Z, ra.Read c Z = rb.Read c Z) :
    ∃ ra' rb', ra.interpolate width c F delta = .ok ra' ∧
      rb.interpolate width c F delta = .ok rb' ∧ ∀ Z, ra'.Read c Z = rb'.Read c Z := by
  refine ⟨_, _, interpolate_eq_ok ra width c F delta hw, interpolate_eq_ok rb width c F delta hw,
    ?_⟩
  intro Z
  rw [h F]
  exact loop_Read_congr _ _ _ _ _ _ _ _ _ _ _ _ (h Z)

theorem interpolate_Read_other (r r' : Render) (width c F delta q Z : Nat)
    (h : r.interpolate width c F delta = .ok r') (hq : q ≠ c) :
    r'.Read q Z = r.Read q Z := by
  by_cases hw : width = 0
  · simp [Render.interpolate, hw] at h
  · rw [interpolate_eq_ok r width c F delta (by omega)] at h
    cases h
    exact loop_Read_ne _ _ _ _ _ _ _ hq _ _ _ _ _

theorem formants_spec (transition speedcounter phase3 : Nat) (hw : 1 ≤ transition) :
    ∀ (ts : List Nat) (r : Render), ts.Nodup →
      ∃ r', formants transition speedcounter phase3 ts r = .ok r' ∧
        (∀ c Z, c ∉ ts → r'.Read c Z = r.Read c Z) ∧
        (∀ c, c ∈ ts → ∃ ri, r.interpolate transition c phase3
            ((r.Read c speedcounter + 256 - r.Read c phase3) % 256) = .ok ri ∧
          ∀ Z, r'.Read c Z = ri.Read c Z) := by
  intro ts
  induction ts with
  | nil =>
    intro r _
    exact ⟨r, rfl, fun _ _ _ => rfl, fun c hc => absurd hc (List.not_mem_nil c)⟩
  | cons t rest ih =>
    intro r hnd
    obtain ⟨ht, hrest⟩ := List.nodup_cons.1 hnd
    have h1 := interpolate_eq_ok r transition t phase3
      ((r.Read t speedcounter + 256 - r.Read t phase3) % 256) hw
    generalize interpolate.loop transition t _ _ _ _ _ _ _ r = r1 at h1
    obtain ⟨r', hr', hout, hin⟩ := ih r1 hrest
    refine ⟨r', ?_, ?_, ?_⟩
    · unfold formants
      simp only [h1, bind, Except.bind]
      exact hr'
    · intro c Z hc
      have hct : c ≠ t := fun e => hc (e ▸ List.mem_cons_self _ _)
      have hcr : c ∉ rest := fun e => hc (List.mem_cons_of_mem _ e)
      rw [hout c Z hcr]
      exact interpolate_Read_other r r1 _ _ _ _ c Z h1 hct
    · intro c hc
      rcases List.mem_cons.1 hc with rfl | hcr
      · exact ⟨r1, h1, fun Z => hout c Z ht⟩
      · have hct : c ≠ t := fun e => ht (e ▸ hcr)
        obtain ⟨ri, hri, hZ⟩ := hin c hcr
        have hsame : ∀ Z, r1.Read c Z = r.Read c Z :=
          fun Z => interpolate_Read_other r r1 _ _ _ _ c Z h1 hct
        obtain ⟨ra, rb, ha, hb, hab⟩ := interpolate_Read_congr r1 r transition c phase3
          ((r1.Read c speedcounter + 256 - r1.Read c phase3) % 256) hw hsame
        rw [hri] at ha
        cases ha
        rw [hsame speedcounter, hsame phase3] at hb
        exact ⟨rb, hb, fun Z => (hZ Z).trans (hab Z)⟩

theorem interpolate_pitch_ok (r : Render) (width pos mem49 phase3 len len' : Nat)
    (hlen : r.PhonemeLengthOutput[pos]? = some len)
    (hlen' : r.PhonemeLengthOutput[(pos + 1) % 256]? = some len')
    (hpitch : (len / 2 + len' / 2) % 256 ≠ 0) :
    ∃ r', r.interpolate_pitch width pos mem49 phase3 = .ok r' ∧
      ∀ q Z, q ≠ 168 → r'.Read q Z = r.Read q Z := by
  unfold Render.interpolate_pitch
  simp only [index_eq_ok hlen, index_eq_ok hlen', bind, Except.bind]
  have h1 := interpolate_eq_ok r ((len / 2 + len' / 2) % 256) 168 phase3
    (byteOfInt ((r.pitches ((len' / 2 + mem49) % 256) : Int)
      - (r.pitches ((mem49 + 256 - len / 2) % 256) : Int))) (by omega)
  exact ⟨_, h1, fun q Z hq => loop_Read_ne _ _ _ _ _ _ _ hq _ _ _ _ _⟩

theorem mem_formantTables (c : Nat) (hc : 169 ≤ c ∧ c ≤ 174) : c ∈ formantTables := by
  obtain ⟨h1, h2⟩ := hc
  interval_cases c <;> simp [formantTables]

/-- C9 (amended): at a boundary that passes the range guard and whose pitch
ramp has a non-zero width (so that the pass does not panic), the pass through the loop
body completes and leaves in each formant channel `c` of 169..174 exactly what
`interpolate` writes on the store as it was before the boundary, with width
`phase1 + phase2`, start frame `phaseStart = elapsed - phase1` and delta
`read(c, elapsed + phase2) - read(c, phaseStart)` (all mod 256).  Hence
channel `c` can change only on the frames
`phaseStart+1 .. phaseStart+width-1`, and its values at `phaseStart` and at
`speedCounter = elapsed + phase2` are left as they were. -/
theorem body_formant_ramp (T : BlendTables) (s : Locals)
    (phoneme next_phoneme phase1 phase2 len len' c elapsed phaseStart speedCounter width : Nat)
    (hcur : s.r.PhonemeIndexOutput[s.pos]? = some phoneme)
    (hnext : s.r.PhonemeIndexOutput[(s.pos + 1) % 256]? = some next_phoneme)
    (hend : next_phoneme ≠ PhonemeEnd)
    (hphase : blendPhases T phoneme next_phoneme = .ok (phase1, phase2))
    (hp1 : phase1 < 256)
    (hlen : s.r.PhonemeLengthOutput[s.pos]? = some len)
    (hlen' : s.r.PhonemeLengthOutput[(s.pos + 1) % 256]? = some len')
    (hpitch : (len / 2 + len' / 2) % 256 ≠ 0)
    (helapsed : elapsed = (s.mem49 + len) % 256)
    (hstart : phaseStart = (elapsed + 256 - phase1) % 256)
    (hspeed : speedCounter = (elapsed + phase2) % 256)
    (hwidth : width = (phase1 + phase2) % 256)
    (hg : rangeGuard width = true)
    (hc : 169 ≤ c ∧ c ≤ 174) :
    ∃ s' ri, body T s = .ok (some s') ∧
      s'.mem49 = elapsed ∧ s'.pos = (s.pos + 1) % 256 ∧
      s.r.interpolate width c phaseStart
        ((s.r.Read c speedCounter + 256 - s.r.Read c phaseStart) % 256) = .ok ri ∧
      (∀ Z, s'.r.Read c Z = ri.Read c Z) ∧
      (∀ Z, (∀ k, 1 ≤ k → k < width → Z ≠ (phaseStart + k) % 256) →
        s'.r.Read c Z = s.r.Read c Z) ∧
      s'.r.Read c phaseStart = s.r.Read c phaseStart ∧
      s'.r.Read c speedCounter = s.r.Read c speedCounter := by
  have hw := (rangeGuard_iff_aux width (by omega)).1 hg
  have hw1 : 1 ≤ width := by omega
  obtain ⟨rp, hrp, hrpq⟩ := interpolate_pitch_ok s.r width s.pos elapsed phaseStart len len'
    hlen hlen' hpitch
  obtain ⟨r', hr', _, hin⟩ := formants_spec width speedCounter phaseStart hw1 formantTables rp
    (by decide)
  obtain ⟨rip, hrip, hZ⟩ := hin c (mem_formantTables c hc)
  have hc168 : c ≠ 168 := by omega
  have hsame : ∀ Z, rp.Read c Z = s.r.Read c Z := fun Z => hrpq c Z hc168
  obtain ⟨ra, ri, ha, hri, hab⟩ := interpolate_Read_congr rp s.r width c phaseStart
    ((rp.Read c speedCounter + 256 - rp.Read c phaseStart) % 256) hw1 hsame
  rw [hrip] at ha
  cases ha
  rw [hsame speedCounter, hsame phaseStart] at hri
  have hfinal : ∀ Z, r'.Read c Z = ri.Read c Z := fun Z => (hZ Z).trans (hab Z)
  have hbody : body T s = .ok (some { r := r', mem49 := elapsed, pos := (s.pos + 1) % 256 }) := by
    rw [body_of_boundary T s phoneme next_phoneme phase1 phase2 hcur hnext hend hphase]
    unfold blend
    simp only [index_eq_ok hlen, bind, Except.bind]
    rw [← helapsed, ← hstart, ← hspeed, ← hwidth, hg]
    simp only [if_true, hrp, hr']
    rfl
  have hri' := hri
  rw [interpolate_eq_ok s.r width c phaseStart _ hw1] at hri'
  cases hri'
  have hout : ∀ Z, (∀ k, 1 ≤ k → k < width → Z ≠ (phaseStart + k) % 256) →
      r'.Read c Z = s.r.Read c Z := by
    intro Z hk
    rw [hfinal Z]
    exact loop_Read_outside _ _ _ _ _ _ _ _ _ _ _ _ (fun k h1 h2 => hk k h1 (by omega))
  refine ⟨_, _, hbody, rfl, rfl, hri, hfinal, hout, ?_, ?_⟩
  · apply hout
    intro k h1 h2
    omega
  · apply hout
    intro k h1 h2
    omega

theorem body_formant_ramp_witness :
    ∃ s' ri, body sampleTables { r := sampleRender, mem49 := 0, pos := 0 } = .ok (some s') ∧
      s'.mem49 = 10 ∧ s'.pos = (0 + 1) % 256 ∧
      sampleRender.interpolate 5 169 8
        ((sampleRender.Read 169 13 + 256 - sampleRender.Read 169 8) % 256) = .ok ri ∧
      (∀ Z, s'.r.Read 169 Z = ri.Read 169 Z) ∧
      (∀ Z, (∀ k, 1 ≤ k → k < 5 → Z ≠ (8 + k) % 256) →
        s'.r.Read 169 Z = sampleRender.Read 169 Z) ∧
      s'.r.Read 169 8 = sampleRender.Read 169 8 ∧
      s'.r.Read 169 13 = sampleRender.Read 169 13 :=
  body_formant_ramp sampleTables { r := sampleRender, mem49 := 0, pos := 0 }
    0 1 2 3 10 8 169 10 8 13 5 rfl rfl (by decide) rfl (by decide) rfl rfl (by decide)
    rfl rfl rfl rfl rfl (by decide)

/-- C14: on bytes the range guard `((transition - 2) & 128) == 0` passes
exactly for the widths 2..129 and fails for 0, 1 and 130..255.  The loop body
runs the ramps only under the guard, so it hands the formant ramps a width in
2..129 only, and `interpolate` with such a width does not divide by zero. -/
theorem rangeGuard_passes_iff (w : Nat) (hw : w < 256) :
    (rangeGuard w = true ↔ 2 ≤ w ∧ w ≤ 129) ∧
    (rangeGuard w = false ↔ w = 0 ∨ w = 1 ∨ (130 ≤ w ∧ w ≤ 255)) ∧
    (∀ (s : Locals) (phase1 phase2 : Nat), w = (phase1 + phase2) % 256 →
      blend s phase1 phase2 =
        (index s.r.PhonemeLengthOutput s.pos).bind fun len =>
          if 2 ≤ w ∧ w ≤ 129 then
            (s.r.interpolate_pitch w s.pos ((s.mem49 + len) % 256)
              (((s.mem49 + len) % 256 + 256 - phase1) % 256)).bind fun r =>
            (formants w (((s.mem49 + len) % 256 + phase2) % 256)
              (((s.mem49 + len) % 256 + 256 - phase1) % 256) formantTables r).bind fun r =>
            .ok { r := r, mem49 := (s.mem49 + len) % 256, pos := (s.pos + 1) % 256 }
          else .ok { r := s.r, mem49 := (s.mem49 + len) % 256, pos := (s.pos + 1) % 256 }) ∧
    (2 ≤ w → ∀ (r : Render) (table frame mem53 : Nat),
      ∃ r', r.interpolate w table frame mem53 = .ok r') := by
  have h := rangeGuard_iff_aux w hw
  refine ⟨h, ?_, ?_, ?_⟩
  · constructor
    · intro hf
      by_contra hc
      have : rangeGuard w = true := h.2 (by omega)
      rw [hf] at this
      cases this
    · intro hc
      cases hg : rangeGuard w with
      | false => rfl
      | true => have := h.1 hg; omega
  · intro s phase1 phase2 hwe
    subst hwe
    unfold blend
    by_cases hg : rangeGuard ((phase1 + phase2) % 256) = true
    · have hr := h.1 hg
      simp only [hg, if_true, hr, and_self, bind, pure, Except.pure]
    · have hr : ¬ (2 ≤ (phase1 + phase2) % 256 ∧ (phase1 + phase2) % 256 ≤ 129) :=
        fun hc => hg (h.2 hc)
      simp only [hg, hr, if_false, bind, pure, Except.pure]
      rfl
  · intro h2 r table frame mem53
    exact ⟨_, interpolate_eq_ok r w table frame mem53 (by omega)⟩

theorem rangeGuard_passes_iff_witness :
    (rangeGuard 129 = true ↔ 2 ≤ 129 ∧ 129 ≤ 129) ∧
    (rangeGuard 129 = false ↔ 129 = 0 ∨ 129 = 1 ∨ (130 ≤ 129 ∧ 129 ≤ 255)) ∧
    (∀ (s : Locals) (phase1 phase2 : Nat), 129 = (phase1 + phase2) % 256 →
      blend s phase1 phase2 =
        (index s.r.PhonemeLengthOutput s.pos).bind fun len =>
          if 2 ≤ 129 ∧ 129 ≤ 129 then
            (s.r.interpolate_pitch 129 s.pos ((s.mem49 + len) % 256)
              (((s.mem49 + len) % 256 + 256 - phase1) % 256)).bind fun r =>
            (formants 129 (((s.mem49 + len) % 256 + phase2) % 256)
              (((s.mem49 + len) % 256 + 256 - phase1) % 256) formantTables r).bind fun r =>
            .ok { r := r, mem49 := (s.mem49 + len) % 256, pos := (s.pos + 1) % 256 }
          else .ok { r := s.r, mem49 := (s.mem49 + len) % 256, pos := (s.pos + 1) % 256 }) ∧
    (2 ≤ 129 → ∀ (r : Render) (table frame mem53 : Nat),
      ∃ r', r.interpolate 129 table frame mem53 = .ok r') :=
  rangeGuard_passes_iff 129 (by decide)

/-- C15: for a valid channel `p`, a read of `(p, Y)` after `Write(p, Y, v)`
returns `v`, and the read of every other entry `(q, Z)`, of the same table at
another frame or of any other table, is unchanged by that write; so the seven
selectors address seven distinct tables. -/
theorem Read_after_Write (r : Render) (p Y v : Nat) (hp : 168 ≤ p ∧ p ≤ 174) :
    (r.Write p Y v).Read p Y = v ∧
    ∀ q Z, (q ≠ p ∨ Z ≠ Y) → (r.Write p Y v).Read q Z = r.Read q Z := by
  constructor
  · rw [Read_Write_self r p Y v Y hp, if_pos rfl]
  · intro q Z h
    rcases h with h | h
    · exact Read_Write_ne r p q Y v Z h
    · exact Read_Write_of_ne_frame r p q Y v Z h

theorem Read_after_Write_witness :
    (sampleRender.Write 171 9 33).Read 171 9 = 33 ∧
    ∀ q Z, (q ≠ 171 ∨ Z ≠ 9) →
      (sampleRender.Write 171 9 33).Read q Z = sampleRender.Read q Z :=
  Read_after_Write sampleRender 171 9 33 (by decide)

/-- C17: when `PhonemeIndexOutput[1]` is the sentinel, a call with fuel for
one entry of the loop body returns at once: no ramp is written, the store is
the one given, `pos` is 0 and the byte returned is `PhonemeLengthOutput[0]`,
whatever `PhonemeIndexOutput[0]` and the blend tables are. -/
theorem CreateTransitions_single_phoneme (T : BlendTables) (r : Render) (fuel len : Nat)
    (hsent : r.PhonemeIndexOutput[1]? = some PhonemeEnd)
    (hlen : r.PhonemeLengthOutput[0]? = some len) (hbyte : len < 256) :
    r.CreateTransitions T (fuel + 1) = .ok { total := len, pos := 0, r := r } := by
  have h0 : ∃ ph, r.PhonemeIndexOutput[0]? = some ph := by
    cases hl : r.PhonemeIndexOutput with
    | nil => rw [hl] at hsent; simp at hsent
    | cons a t => exact ⟨a, by simp⟩
  obtain ⟨ph, hph⟩ := h0
  have hb : body T { r := r, mem49 := 0, pos := 0 } = .ok none := by
    unfold body
    simp only [index_eq_ok hph, show (0 + 1) % 256 = 1 from rfl, index_eq_ok hsent, bind,
      Except.bind, if_true]
    rfl
  unfold Render.CreateTransitions loop
  simp only [hb, index_eq_ok hlen, Nat.zero_add, Nat.mod_eq_of_lt hbyte]

theorem CreateTransitions_single_phoneme_witness :
    singlePhoneme.CreateTransitions sampleTables (0 + 1)
      = .ok { total := 10, pos := 0, r := singlePhoneme } :=
  CreateTransitions_single_phoneme sampleTables singlePhoneme 0 10 rfl rfl (by decide)

/-- C12 (the code at the failing input): two phonemes of length 1 (both
greater than 0) followed by the sentinel, with equal ranks and out-blend
lengths 2 and 3.  The transition width 5 passes the range guard, the pitch
ramp gets the width `1/2 + 1/2 = 0`, and the call panics on the modulo by the
width in `interpolate`, whatever fuel it is given. -/
theorem CreateTransitions_short_phonemes_panic (fuel : Nat) :
    shortPhonemes.PhonemeIndexOutput = [0, 1, 255] ∧
    shortPhonemes.PhonemeLengthOutput = [1, 1, 0] ∧
    rangeGuard ((2 + 3) % 256) = true ∧
    shortPhonemes.interpolate_pitch 5 0 1 255 = .error .divideByZero ∧
    shortPhonemes.CreateTransitions sampleTables (fuel + 1) = .error .divideByZero :=
  ⟨rfl, rfl, rfl, rfl, rfl⟩

theorem body_of_sentinel (T : BlendTables) (s : Locals) (phoneme : Nat)
    (hcur : s.r.PhonemeIndexOutput[s.pos]? = some phoneme)
    (hnext : s.r.PhonemeIndexOutput[(s.pos + 1) % 256]? = some PhonemeEnd) :
    body T s = .ok none := by
  unfold body
  simp only [index_eq_ok hcur, index_eq_ok hnext, bind, Except.bind, if_true]
  rfl

theorem boundary_pass (T : BlendTables) (s : Locals)
    (phoneme next_phoneme phase1 phase2 len len' elapsed phaseStart speedCounter width : Nat)
    (hcur : s.r.PhonemeIndexOutput[s.pos]? = some phoneme)
    (hnext : s.r.PhonemeIndexOutput[(s.pos + 1) % 256]? = some next_phoneme)
    (hend : next_phoneme ≠ PhonemeEnd)
    (hphase : blendPhases T phoneme next_phoneme = .ok (phase1, phase2))
    (hlen : s.r.PhonemeLengthOutput[s.pos]? = some len)
    (hlen' : s.r.PhonemeLengthOutput[(s.pos + 1) % 256]? = some len')
    (hpitch : (len / 2 + len' / 2) % 256 ≠ 0)
    (helapsed : elapsed = (s.mem49 + len) % 256)
    (hstart : phaseStart = (elapsed + 256 - phase1) % 256)
    (hspeed : speedCounter = (elapsed + phase2) % 256)
    (hwidth : width = (phase1 + phase2) % 256)
    (hg : rangeGuard width = true) :
    ∃ s', body T s = .ok (some s') ∧
      s'.mem49 = elapsed ∧ s'.pos = (s.pos + 1) % 256 ∧
      s'.r.PhonemeIndexOutput = s.r.PhonemeIndexOutput ∧
      s'.r.PhonemeLengthOutput = s.r.PhonemeLengthOutput ∧
      (∃ rp, s.r.interpolate_pitch width s.pos elapsed phaseStart = .ok rp ∧
        ∀ Z, s'.r.Read 168 Z = rp.Read 168 Z) ∧
      ∀ c, 169 ≤ c ∧ c ≤ 174 →
        ∃ ri, s.r.interpolate width c phaseStart
            ((s.r.Read c speedCounter + 256 - s.r.Read c phaseStart) % 256) = .ok ri ∧
          ∀ Z, s'.r.Read c Z = ri.Read c Z := by
  have hw := (rangeGuard_iff_aux width (by omega)).1 hg
  have hw1 : 1 ≤ width := by omega
  obtain ⟨rp, hrp, hrpq⟩ := interpolate_pitch_ok s.r width s.pos elapsed phaseStart len len'
    hlen hlen' hpitch
  obtain ⟨r', hr', hnotin, hin⟩ := formants_spec width speedCounter phaseStart hw1
    formantTables rp (by decide)
  have hbody : body T s = .ok (some { r := r', mem49 := elapsed, pos := (s.pos + 1) % 256 }) := by
    rw [body_of_boundary T s phoneme next_phoneme phase1 phase2 hcur hnext hend hphase]
    unfold blend
    simp only [index_eq_ok hlen, bind, Except.bind]
    rw [← helapsed, ← hstart, ← hspeed, ← hwidth, hg]
    simp only [if_true, hrp, hr']
    rfl
  have hlists : r'.PhonemeIndexOutput = s.r.PhonemeIndexOutput ∧
      r'.PhonemeLengthOutput = s.r.PhonemeLengthOutput := by
    rcases body_cases T s with ⟨e, he, _⟩ | ⟨hb, _⟩ | ⟨s'', _, _, hb, _, _, _, _, _, hi, hl⟩
    · rw [hbody] at he; cases he
    · rw [hbody] at hb; cases hb
    · rw [hbody] at hb
      cases hb
      exact ⟨hi, hl⟩
  refine ⟨_, hbody, rfl, rfl, hlists.1, hlists.2, ⟨rp, hrp, ?_⟩, ?_⟩
  · intro Z
    exact hnotin 168 Z (by decide)
  · intro c hc
    obtain ⟨rip, hrip, hZ⟩ := hin c (mem_formantTables c hc)
    have hc168 : c ≠ 168 := by omega
    have hsame : ∀ Z, rp.Read c Z = s.r.Read c Z := fun Z => hrpq c Z hc168
    obtain ⟨ra, ri, ha, hri, hab⟩ := interpolate_Read_congr rp s.r width c phaseStart
      ((rp.Read c speedCounter + 256 - rp.Read c phaseStart) % 256) hw1 hsame
    rw [hrip] at ha
    cases ha
    rw [hsame speedCounter, hsame phaseStart] at hri
    exact ⟨ri, hri, fun Z => (hZ Z).trans (hab Z)⟩

theorem interpolate_Read_outside (r r' : Render) (width c F delta Z : Nat)
    (h : r.interpolate width c F delta = .ok r')
    (hZ : ∀ k, 1 ≤ k → k < width → Z ≠ (F + k) % 256) :
    r'.Read c Z = r.Read c Z := by
  by_cases hw : width = 0
  · simp [Render.interpolate, hw] at h
  · rw [interpolate_eq_ok r width c F delta (by omega)] at h
    cases h
    exact loop_Read_outside _ _ _ _ _ _ _ _ _ _ _ _ (fun k h1 h2 => hZ k h1 (by omega))

theorem blendPhases_of_equal_rank (T : BlendTables) (phoneme next_phoneme rank phase1 phase2 : Nat)
    (hrank : T.blendRank[phoneme]? = some rank)
    (hrank' : T.blendRank[next_phoneme]? = some rank)
    (hout : T.outBlendLength[phoneme]? = some phase1)
    (hout' : T.outBlendLength[next_phoneme]? = some phase2) :
    blendPhases T phoneme next_phoneme = .ok (phase1, phase2) := by
  simp [blendPhases, index_eq_ok hrank, index_eq_ok hrank', index_eq_ok hout,
    index_eq_ok hout', bind, Except.bind, pure, Except.pure]

theorem three_phonemes_run (T : BlendTables) (r : Render)
    (p0 p1 p2 rank fuel c : Nat)
    (hi0 : r.PhonemeIndexOutput[0]? = some p0)
    (hi1 : r.PhonemeIndexOutput[1]? = some p1)
    (hi2 : r.PhonemeIndexOutput[2]? = some p2)
    (hi3 : r.PhonemeIndexOutput[3]? = some PhonemeEnd)
    (hp1 : p1 ≠ PhonemeEnd) (hp2 : p2 ≠ PhonemeEnd)
    (hl0 : r.PhonemeLengthOutput[0]? = some 10)
    (hl1 : r.PhonemeLengthOutput[1]? = some 8)
    (hl2 : r.PhonemeLengthOutput[2]? = some 12)
    (hr0 : T.blendRank[p0]? = some rank)
    (hr1 : T.blendRank[p1]? = some rank)
    (hr2 : T.blendRank[p2]? = some rank)
    (ho0 : T.outBlendLength[p0]? = some 2)
    (ho1 : T.outBlendLength[p1]? = some 3)
    (ho2 : T.outBlendLength[p2]? = some 4)
    (hfuel : 3 ≤ fuel)
    (hc : 169 ≤ c ∧ c ≤ 174) :
    ∃ f r1 r2, r.CreateTransitions T fuel = .ok f ∧ f.total = 30 ∧ f.pos = 2 ∧
      r.interpolate 5 c 8 ((r.Read c 13 + 256 - r.Read c 8) % 256) = .ok r1 ∧
      r1.interpolate 7 c 15 ((r.Read c 22 + 256 - r.Read c 15) % 256) = .ok r2 ∧
      (∀ Z, f.r.Read c Z = r2.Read c Z) ∧
      (∀ Z, ¬ (9 ≤ Z ∧ Z ≤ 12) → ¬ (16 ≤ Z ∧ Z ≤ 21) → f.r.Read c Z = r.Read c Z) := by
  obtain ⟨s1, hb1, hm1, hpos1, hidx1, hlens1, _, hch1⟩ :=
    boundary_pass T { r := r, mem49 := 0, pos := 0 } p0 p1 2 3 10 8 10 8 13 5 hi0 hi1 hp1
      (blendPhases_of_equal_rank T p0 p1 rank 2 3 hr0 hr1 ho0 ho1) hl0 hl1 (by decide)
      rfl rfl rfl rfl rfl
  have hpos1' : s1.pos = 1 := hpos1
  have hidx1' : s1.r.PhonemeIndexOutput = r.PhonemeIndexOutput := hidx1
  have hlens1' : s1.r.PhonemeLengthOutput = r.PhonemeLengthOutput := hlens1
  obtain ⟨s2, hb2, hm2, hpos2, hidx2, hlens2, _, hch2⟩ :=
    boundary_pass T s1 p1 p2 3 4 8 12 18 15 22 7
      (by rw [hidx1', hpos1']; exact hi1) (by rw [hidx1', hpos1']; exact hi2) hp2
      (blendPhases_of_equal_rank T p1 p2 rank 3 4 hr1 hr2 ho1 ho2)
      (by rw [hlens1', hpos1']; exact hl1) (by rw [hlens1', hpos1']; exact hl2) (by decide)
      (by rw [hm1]) rfl rfl rfl rfl
  have hpos2' : s2.pos = 2 := by rw [hpos2, hpos1']
  have hb3 : body T s2 = .ok none :=
    body_of_sentinel T s2 p2
      (by rw [hidx2, hidx1', hpos2']; exact hi2) (by rw [hidx2, hidx1', hpos2']; exact hi3)
  have hl3 : index s2.r.PhonemeLengthOutput s2.pos = .ok 12 := by
    rw [hlens2, hlens1', hpos2']
    exact index_eq_ok hl2
  obtain ⟨g, rfl⟩ : ∃ g, fuel = g + 3 := ⟨fuel - 3, by omega⟩
  have hrun : r.CreateTransitions T (g + 3)
      = .ok { total := (s2.mem49 + 12) % 256, pos := s2.pos, r := s2.r } := by
    unfold Render.CreateTransitions
    rw [loop]
    simp only [hb1]
    rw [loop]
    simp only [hb2]
    rw [loop]
    simp only [hb3, hl3]
  obtain ⟨r1, hr1', hZ1⟩ := hch1 c hc
  obtain ⟨ri2, hri2, hZ2⟩ := hch2 c hc
  have hZ1' : ∀ Z, s1.r.Read c Z = r1.Read c Z := hZ1
  have hout1 : ∀ Z, ¬ (9 ≤ Z ∧ Z ≤ 12) → r1.Read c Z = r.Read c Z := by
    intro Z hZ
    apply interpolate_Read_outside r r1 5 c 8 _ Z hr1'
    intro k h1 h2
    omega
  obtain ⟨ra, r2, ha, hr2', hab⟩ := interpolate_Read_congr s1.r r1 7 c 15
    ((s1.r.Read c 22 + 256 - s1.r.Read c 15) % 256) (by decide) hZ1'
  rw [hri2] at ha
  cases ha
  rw [hZ1' 22, hZ1' 15, hout1 22 (by omega), hout1 15 (by omega)] at hr2'
  have hfin : ∀ Z, s2.r.Read c Z = r2.Read c Z := fun Z => (hZ2 Z).trans (hab Z)
  refine ⟨_, r1, r2, hrun, ?_, hpos2', hr1', hr2', hfin, ?_⟩
  · show (s2.mem49 + 12) % 256 = 30
    rw [hm2]
  · intro Z hZa hZb
    show s2.r.Read c Z = r.Read c Z
    rw [hfin Z, interpolate_Read_outside r1 r2 7 c 15 _ Z hr2' (by intro k h1 h2; omega)]
    exact hout1 Z hZa

theorem formants_cons (transition speedcounter phase3 table : Nat) (rest : List Nat)
    (r : Render) :
    formants transition speedcounter phase3 (table :: rest) r
      = (r.interpolate transition table phase3
          ((r.Read table speedcounter + 256 - r.Read table phase3) % 256)).bind
        (formants transition speedcounter phase3 rest) := by
  rw [formants]
  rfl

theorem formants_append (transition speedcounter phase3 : Nat) :
    ∀ (pre post : List Nat) (r : Render),
      formants transition speedcounter phase3 (pre ++ post) r
        = (formants transition speedcounter phase3 pre r).bind
          (formants transition speedcounter phase3 post) := by
  intro pre
  induction pre with
  | nil => intro post r; rfl
  | cons t rest ih =>
    intro post r
    rw [List.cons_append, formants_cons, formants_cons]
    cases h : r.interpolate transition t phase3
        ((r.Read t speedcounter + 256 - r.Read t phase3) % 256) with
    | error e => rfl
    | ok r1 => exact ih post r1

/-- C13 (counterexample): in the 10/8/12 scenario with the step profile in
the pitch table, the first boundary ramps the pitch frames 9..16, and the
second boundary (elapsed 18, half-lengths 4 and 6, start frame 15) reads the
pitch mid-point at frame `18 - 4 = 14` and the ramp base at frame 15: it finds
46 and 51 there, written by the first boundary, where the table held 60 and 60
before the call.  The call therefore leaves 50 at pitch frame 16, not the 57
that the same ramp gives on the store as it was before the call. -/
theorem pitch_read_of_written_frame_sample :
    ∃ s1 f ri,
      body sampleTables { r := pitchStep, mem49 := 0, pos := 0 } = .ok (some s1) ∧
      s1.pos = 1 ∧ s1.mem49 = 10 ∧
      s1.r.interpolate_pitch 7 1 18 15
        = s1.r.interpolate 10 168 15
            (byteOfInt ((s1.r.pitches 24 : Int) - (s1.r.pitches 14 : Int))) ∧
      pitchStep.pitches 14 = 60 ∧ s1.r.pitches 14 = 46 ∧
      pitchStep.pitches 15 = 60 ∧ s1.r.pitches 15 = 51 ∧
      pitchStep.CreateTransitions sampleTables 3 = .ok f ∧
      pitchStep.interpolate_pitch 7 1 18 15 = .ok ri ∧
      f.r.pitches 16 = 50 ∧ ri.pitches 16 = 57 :=
  ⟨_, _, _, rfl, rfl, rfl, rfl, rfl, rfl, rfl, rfl, rfl, rfl, rfl, rfl⟩

/-- C13 (amended): at a boundary that passes the range guard (and whose pitch
ramp has a non-zero width), every table value read is the value the store
held at that frame when the processing of this boundary began.  The pitch
ramp runs on the store `s.r` as the boundary finds it; and for every formant
channel `c`, the store `rj` left by the pitch ramp and by the ramps of the
channels before `c`, on which the ramp of `c` reads its base and its two delta
end points, agrees with `s.r` on the whole of channel `c`.  For the first
boundary `s.r` is the store before the call. -/
theorem boundary_reads_at_entry (T : BlendTables) (s : Locals)
    (phoneme next_phoneme phase1 phase2 len len' elapsed phaseStart speedCounter width c : Nat)
    (pre post : List Nat)
    (hcur : s.r.PhonemeIndexOutput[s.pos]? = some phoneme)
    (hnext : s.r.PhonemeIndexOutput[(s.pos + 1) % 256]? = some next_phoneme)
    (hend : next_phoneme ≠ PhonemeEnd)
    (hphase : blendPhases T phoneme next_phoneme = .ok (phase1, phase2))
    (hlen : s.r.PhonemeLengthOutput[s.pos]? = some len)
    (hlen' : s.r.PhonemeLengthOutput[(s.pos + 1) % 256]? = some len')
    (hpitch : (len / 2 + len' / 2) % 256 ≠ 0)
    (helapsed : elapsed = (s.mem49 + len) % 256)
    (hstart : phaseStart = (elapsed + 256 - phase1) % 256)
    (hspeed : speedCounter = (elapsed + phase2) % 256)
    (hwidth : width = (phase1 + phase2) % 256)
    (hg : rangeGuard width = true)
    (hsplit : formantTables = pre ++ c :: post) :
    ∃ rp rj r',
      s.r.interpolate_pitch width s.pos elapsed phaseStart = .ok rp ∧
      formants width speedCounter phaseStart pre rp = .ok rj ∧
      (∀ Z, rj.Read c Z = s.r.Read c Z) ∧
      formants width speedCounter phaseStart formantTables rp
        = (rj.interpolate width c phaseStart
            ((rj.Read c speedCounter + 256 - rj.Read c phaseStart) % 256)).bind
          (formants width speedCounter phaseStart post) ∧
      formants width speedCounter phaseStart formantTables rp = .ok r' ∧
      body T s = .ok (some { r := r', mem49 := elapsed, pos := (s.pos + 1) % 256 }) := by
  have hw := (rangeGuard_iff_aux width (by omega)).1 hg
  have hw1 : 1 ≤ width := by omega
  obtain ⟨rp, hrp, hrpq⟩ := interpolate_pitch_ok s.r width s.pos elapsed phaseStart len len'
    hlen hlen' hpitch
  have hnd : (pre ++ c :: post).Nodup := by rw [← hsplit]; decide
  have hpre : pre.Nodup := (List.nodup_append.1 hnd).1
  have hcpre : c ∉ pre := by
    intro hmem
    exact (List.nodup_append.1 hnd).2.2 hmem (List.mem_cons_self c post) 
  have hc168 : c ≠ 168 := by
    intro h168
    have : (168 : Nat) ∈ formantTables := by
      rw [hsplit, ← h168]
      exact List.mem_append_right _ (List.mem_cons_self c post)
    revert this
    decide
  obtain ⟨rj, hrj, hnotin, _⟩ := formants_spec width speedCounter phaseStart hw1 pre rp hpre
  obtain ⟨r', hr', _, _⟩ := formants_spec width speedCounter phaseStart hw1 formantTables rp
    (by decide)
  refine ⟨rp, rj, r', hrp, hrj, ?_, ?_, hr', ?_⟩
  · intro Z
    rw [hnotin c Z hcpre]
    exact hrpq c Z hc168
  · rw [hsplit, formants_append, hrj, ← formants_cons]
    rfl
  · rw [body_of_boundary T s phoneme next_phoneme phase1 phase2 hcur hnext hend hphase]
    unfold blend
    simp only [index_eq_ok hlen, bind, Except.bind]
    rw [← helapsed, ← hstart, ← hspeed, ← hwidth, hg]
    simp only [if_true, hrp, hr']
    rfl

theorem boundary_reads_at_entry_witness :
    ∃ rp rj r',
      pitchStep.interpolate_pitch 5 0 10 8 = .ok rp ∧
      formants 5 13 8 [169, 170] rp = .ok rj ∧
      (∀ Z, rj.Read 171 Z = pitchStep.Read 171 Z) ∧
      formants 5 13 8 formantTables rp
        = (rj.interpolate 5 171 8
            ((rj.Read 171 13 + 256 - rj.Read 171 8) % 256)).bind
          (formants 5 13 8 [172, 173, 174]) ∧
      formants 5 13 8 formantTables rp = .ok r' ∧
      body sampleTables { r := pitchStep, mem49 := 0, pos := 0 }
        = .ok (some { r := r', mem49 := 10, pos := (0 + 1) % 256 }) :=
  boundary_reads_at_entry sampleTables { r := pitchStep, mem49 := 0, pos := 0 }
    0 1 2 3 10 8 10 8 13 5 171 [169, 170] [172, 173, 174]
    rfl rfl (by decide) rfl rfl rfl (by decide) rfl rfl rfl rfl rfl rfl

theorem loop_succ_eq (width table : Nat) (sign : Bool) (remainder div n intError frame val : Nat)
    (r : Render) :
    interpolate.loop width table sign remainder div (n + 1) intError frame val r
      = interpolate.loop width table sign remainder div n (intErrorStep width remainder intError)
          ((frame + 1) % 256) ((valStep width sign remainder intError val + div) % 256)
          (r.Write table ((frame + 1) % 256) (valStep width sign remainder intError val)) := by
  rw [interpolate.loop]
  unfold intErrorStep valStep
  by_cases h : (intError + remainder) % 256 ≥ width
  · simp only [h, decide_True, if_true]
  · simp only [h, decide_False, if_false, Bool.false_eq_true]

theorem divmod_step (a rem w : Nat) (hw : 0 < w) (hr : rem < w) :
    (w ≤ a % w + rem → (a + rem) / w = a / w + 1 ∧ (a + rem) % w = a % w + rem - w) ∧
    (a % w + rem < w → (a + rem) / w = a / w ∧ (a + rem) % w = a % w + rem) := by
  have h := Nat.div_add_mod a w
  have hm := Nat.mod_lt a hw
  constructor
  · intro hc
    rw [Nat.div_mod_unique hw, Nat.mul_succ]
    omega
  · intro hc
    rw [Nat.div_mod_unique hw]
    omega

theorem intErrorStep_closed (w rem j : Nat) (hw1 : 1 ≤ w) (hw : w ≤ 128) (hr : rem < w) :
    intErrorStep w rem ((j * rem) % w) = ((j + 1) * rem) % w := by
  have hm := Nat.mod_lt (j * rem) hw1
  have hd := divmod_step (j * rem) rem w hw1 hr
  have e : (j + 1) * rem = j * rem + rem := Nat.succ_mul j rem
  rw [e]
  unfold intErrorStep
  have hs : ((j * rem) % w + rem) % 256 = (j * rem) % w + rem := Nat.mod_eq_of_lt (by omega)
  rw [hs]
  by_cases hc : w ≤ (j * rem) % w + rem
  · rw [if_pos hc, (hd.1 hc).2]
    omega
  · rw [if_neg hc, (hd.2 (by omega)).2]

theorem valStep_closed (w rem j B D C val : Nat) (sign : Bool)
    (hw1 : 1 ≤ w) (hw : w ≤ 128) (hr : rem < w)
    (hC : (sign = true ∧ C = 255) ∨ (sign = false ∧ C = 1))
    (hval : val = (B + (j + 1) * D + C * ((j * rem) / w)) % 256)
    (hnz : sign = false → val ≠ 0) :
    valStep w sign rem ((j * rem) % w) val
      = (B + (j + 1) * D + C * (((j + 1) * rem) / w)) % 256 := by
  have hm := Nat.mod_lt (j * rem) hw1
  have hd := divmod_step (j * rem) rem w hw1 hr
  have e : (j + 1) * rem = j * rem + rem := Nat.succ_mul j rem
  rw [e]
  unfold valStep
  have hs : ((j * rem) % w + rem) % 256 = (j * rem) % w + rem := Nat.mod_eq_of_lt (by omega)
  rw [hs]
  by_cases hc : w ≤ (j * rem) % w + rem
  · rw [if_pos hc, (hd.1 hc).1, Nat.mul_succ]
    rcases hC with ⟨hs1, hC1⟩ | ⟨hs1, hC1⟩
    · subst hs1 hC1
      simp only [if_true]
      omega
    · subst hs1 hC1
      have hv := hnz rfl
      simp only [Bool.false_eq_true, if_false, if_pos hv]
      omega
  · rw [if_neg hc, (hd.2 (by omega)).1]
    exact hval

theorem loop_Read_closed (w c rem B D C : Nat) (sign : Bool)
    (ht : 168 ≤ c ∧ c ≤ 174) (hw1 : 1 ≤ w) (hw : w ≤ 128) (hr : rem < w)
    (hC : (sign = true ∧ C = 255) ∨ (sign = false ∧ C = 1)) :
    ∀ (n j F val : Nat) (r : Render), n ≤ 255 →
      val = (B + (j + 1) * D + C * ((j * rem) / w)) % 256 →
      (sign = false → ∀ i, j ≤ i → i < j + n →
        (B + (i + 1) * D + C * ((i * rem) / w)) % 256 ≠ 0) →
      ∀ k, 1 ≤ k → k ≤ n →
        (interpolate.loop w c sign rem D n ((j * rem) % w) F val r).Read c ((F + k) % 256)
          = (B + (j + k) * D + C * (((j + k) * rem) / w)) % 256 := by
  intro n
  induction n with
  | zero => intro _ _ _ _ _ _ _ k h1 h2; omega
  | succ n ih =>
    intro j F val r hn hval hnz k hk1 hkn
    have hv1 := valStep_closed w rem j B D C val sign hw1 hw hr hC hval
      (fun hs => by rw [hval]; exact hnz hs j (le_refl j) (by omega))
    rw [loop_succ_eq, intErrorStep_closed w rem j hw1 hw hr, hv1]
    by_cases hk : k = 1
    · subst hk
      rw [loop_Read_outside, Read_Write_self _ _ _ _ _ ht, if_pos rfl]
      intro i hi1 hin
      omega
    · obtain ⟨m, rfl⟩ : ∃ m, k = m + 2 := ⟨k - 2, by omega⟩
      have e : (F + (m + 2)) % 256 = ((F + 1) % 256 + (m + 1)) % 256 := by omega
      have e2 : j + (m + 2) = j + 1 + (m + 1) := by omega
      rw [e, e2]
      apply ih (j + 1) ((F + 1) % 256) _ _ (by omega)
      · have e3 : (j + 1 + 1) * D = (j + 1) * D + D := Nat.succ_mul (j + 1) D
        rw [e3]
        omega
      · intro hs i hi1 hi2
        exact hnz hs i (by omega) (by omega)
      · omega
      · omega

theorem mul_div_split (m w k : Nat) (hw : 0 < w) :
    (k * m) / w = k * (m / w) + (k * (m % w)) / w := by
  have h := Nat.div_add_mod m w
  have e : k * m = k * (m % w) + (k * (m / w)) * w := by
    conv_lhs => rw [← h]
    ring
  rw [e, Nat.add_mul_div_right _ _ hw]
  exact Nat.add_comm _ _

theorem byteOfInt_natCast (n : Nat) : byteOfInt (n : Int) = n % 256 := by
  unfold byteOfInt
  omega

theorem tdiv_mul_natCast (k m w : Nat) :
    ((k : Int) * (m : Int)).tdiv (w : Int) = ((k * m / w : Nat) : Int) := by
  rw [Int.ofNat_tdiv]
  push_cast
  rfl

theorem tdiv_mul_neg_natCast (k m w : Nat) :
    ((k : Int) * (-(m : Int))).tdiv (w : Int) = -((k * m / w : Nat) : Int) := by
  rw [mul_neg, Int.neg_tdiv, tdiv_mul_natCast]

theorem ramp_closed_neg (B k q c : Nat) :
    (((B + k * byteOfInt (-(q : Int)) + 255 * c) % 256 : Nat) : Int)
      = ((B : Int) - ((k * q + c : Nat) : Int)) % 256 := by
  have hd : ((byteOfInt (-(q : Int)) : Nat) : Int) = (-(q : Int)) % 256 := by
    unfold byteOfInt
    exact Int.toNat_of_nonneg (Int.emod_nonneg _ (by decide))
  have h2 : -(q : Int) = (-(q : Int)) % 256 + 256 * ((-(q : Int)) / 256) :=
    (Int.emod_add_ediv _ 256).symm
  push_cast
  rw [hd]
  have h3 : (B : Int) + (k : Int) * ((-(q : Int)) % 256) + 255 * (c : Int)
      = (B : Int) - ((k : Int) * (q : Int) + (c : Int))
        + 256 * ((c : Int) - (k : Int) * ((-(q : Int)) / 256)) := by
    have h4 : (-(q : Int)) % 256 = -(q : Int) - 256 * ((-(q : Int)) / 256) := by omega
    rw [h4]
    ring
  rw [h3, Int.add_mul_emod_self_left]

theorem ramp_offset_bounds (m w k k' : Nat) (hk : k ≤ k') (hk' : k' ≤ w) :
    (k * m) / w ≤ (k' * m) / w ∧ (k' * m) / w ≤ m := by
  constructor
  · exact Nat.div_le_div_right (Nat.mul_le_mul_right m hk)
  · exact Nat.div_le_of_le_mul (Nat.mul_le_mul_right m hk')

theorem interpolate_closed_pos (r : Render) (w c F d : Nat)
    (ht : 168 ≤ c ∧ c ≤ 174) (hw1 : 1 ≤ w) (hw : w ≤ 128) (hd : d < 128)
    (hB1 : 1 ≤ r.Read c F) (hB : r.Read c F + d ≤ 255) :
    ∃ r', r.interpolate w c F d = .ok r' ∧
      ∀ k, 1 ≤ k → k < w → r'.Read c ((F + k) % 256) = r.Read c F + (k * d) / w := by
  refine ⟨_, interpolate_eq_ok r w c F d hw1, ?_⟩
  intro k hk1 hk2
  have h8 : int8 d = (d : Int) := by unfold int8; rw [if_pos hd]
  have hsign : decide (int8 d < 0) = false := by
    rw [h8]; exact decide_eq_false (by omega)
  have habs : byteOfInt (abs (int8 d)) = d := by
    rw [byteOfInt_abs_int8 d (by omega), h8]; rfl
  have hdiv : byteOfInt ((int8 d).tdiv (w : Int)) = d / w := by
    rw [h8, ← Int.ofNat_tdiv, byteOfInt_natCast]
    have hq := Nat.div_le_self d w
    generalize d / w = x at hq ⊢
    omega
  rw [hsign, habs, hdiv]
  have hsplit : ∀ i, (i * d) / w = i * (d / w) + (i * (d % w)) / w :=
    fun i => mul_div_split d w i hw1
  have hbound : ∀ i, i ≤ w → (i * d) / w ≤ d :=
    fun i hi => (ramp_offset_bounds d w i i (le_refl i) hi).2
  have hmono : ∀ i, (i * (d % w)) / w ≤ ((i + 1) * (d % w)) / w :=
    fun i => Nat.div_le_div_right (Nat.mul_le_mul_right _ (Nat.le_succ i))
  have h := loop_Read_closed w c (d % w) (r.Read c F) (d / w) 1 false ht hw1 hw
    (Nat.mod_lt d hw1) (Or.inr ⟨rfl, rfl⟩) (w - 1) 0 F ((r.Read c F + d / w) % 256) r
    (by omega) (by simp)
    (by
      intro _ i _ hi
      have h1 := hsplit (i + 1)
      have h2 := hbound (i + 1) (by omega)
      have h3 := hmono i
      have e : (i + 1) * (d / w) = i * (d / w) + d / w := Nat.succ_mul i (d / w)
      rw [e] at h1 ⊢
      omega)
    k hk1 (by omega)
  rw [Nat.zero_mul, Nat.zero_mod, Nat.zero_add] at h
  rw [h]
  have h1 := hsplit k
  have h2 := hbound k (by omega)
  omega

theorem interpolate_closed_neg (r : Render) (w c F d : Nat)
    (ht : 168 ≤ c ∧ c ≤ 174) (hw1 : 1 ≤ w) (hw : w ≤ 128) (hd : 128 ≤ d) (hd' : d < 256) :
    ∃ r', r.interpolate w c F d = .ok r' ∧
      ∀ k, 1 ≤ k → k < w →
        ((r'.Read c ((F + k) % 256) : Nat) : Int)
          = ((r.Read c F : Int) - ((k * (256 - d) / w : Nat) : Int)) % 256 := by
  refine ⟨_, interpolate_eq_ok r w c F d hw1, ?_⟩
  intro k hk1 hk2
  have h8 : int8 d = -((256 - d : Nat) : Int) := by
    unfold int8; rw [if_neg (by omega)]; omega
  have hsign : decide (int8 d < 0) = true := by
    rw [h8]; exact decide_eq_true (by omega)
  have habs : byteOfInt (abs (int8 d)) = 256 - d := by
    rw [byteOfInt_abs_int8 d hd', h8]; omega
  have hdiv : byteOfInt ((int8 d).tdiv (w : Int)) = byteOfInt (-(((256 - d) / w : Nat) : Int)) := by
    rw [h8, Int.neg_tdiv, ← Int.ofNat_tdiv]
  rw [hsign, habs, hdiv]
  have h := loop_Read_closed w c ((256 - d) % w) (r.Read c F)
    (byteOfInt (-(((256 - d) / w : Nat) : Int))) 255 true ht hw1 hw
    (Nat.mod_lt _ hw1) (Or.inl ⟨rfl, rfl⟩) (w - 1) 0 F
    ((r.Read c F + byteOfInt (-(((256 - d) / w : Nat) : Int))) % 256) r
    (by omega) (by simp) (by intro hs; cases hs) k hk1 (by omega)
  rw [Nat.zero_mul, Nat.zero_mod, Nat.zero_add] at h
  rw [h, ramp_closed_neg, mul_div_split (256 - d) w k hw1]

/-- C16: for a valid channel, a width from 1 to 128 and a signed 8-bit delta
`d` that is negative, or non-negative with `base >= 1` and `base + d <= 255`
(`base` the channel's value at `F`), `interpolate` leaves at frame `F+k`, for
every `k` in `1..width-1`, the value `(base + trunc(k*d/width)) mod 256`,
the division truncating toward zero.  The offsets `trunc(k*d/width)` are
monotone in `k` and lie between 0 and `d`, so the ramp never passes
`base + d`. -/
theorem interpolate_closed_form (r : Render) (width c F delta : Nat)
    (hc : 168 ≤ c ∧ c ≤ 174) (hw1 : 1 ≤ width) (hw : width ≤ 128) (hd : delta < 256)
    (hcase : int8 delta < 0 ∨
      (0 ≤ int8 delta ∧ 1 ≤ r.Read c F ∧ (r.Read c F : Int) + int8 delta ≤ 255)) :
    (∃ r', r.interpolate width c F delta = .ok r' ∧
      ∀ k : Nat, 1 ≤ k → k < width →
        ((r'.Read c ((F + k) % 256) : Nat) : Int)
          = ((r.Read c F : Int) + ((k : Int) * int8 delta).tdiv (width : Int)) % 256) ∧
    (∀ k k' : Nat, k ≤ k' → k' ≤ width →
      (0 ≤ int8 delta →
        0 ≤ ((k : Int) * int8 delta).tdiv (width : Int) ∧
        ((k : Int) * int8 delta).tdiv (width : Int)
          ≤ ((k' : Int) * int8 delta).tdiv (width : Int) ∧
        ((k' : Int) * int8 delta).tdiv (width : Int) ≤ int8 delta) ∧
      (int8 delta < 0 →
        int8 delta ≤ ((k' : Int) * int8 delta).tdiv (width : Int) ∧
        ((k' : Int) * int8 delta).tdiv (width : Int)
          ≤ ((k : Int) * int8 delta).tdiv (width : Int) ∧
        ((k : Int) * int8 delta).tdiv (width : Int) ≤ 0)) := by
  by_cases hlt : delta < 128
  · have h8 : int8 delta = (delta : Int) := by unfold int8; rw [if_pos hlt]
    rw [h8] at hcase ⊢
    constructor
    · have hB : 1 ≤ r.Read c F ∧ r.Read c F + delta ≤ 255 := by
        rcases hcase with h | ⟨_, h1, h2⟩
        · omega
        · exact ⟨h1, by omega⟩
      obtain ⟨r', hr', hk⟩ := interpolate_closed_pos r width c F delta hc hw1 hw hlt hB.1 hB.2
      refine ⟨r', hr', ?_⟩
      intro k hk1 hk2
      rw [hk k hk1 hk2, tdiv_mul_natCast]
      have hb := (ramp_offset_bounds delta width k k (le_refl k) (by omega)).2
      generalize k * delta / width = x at hb ⊢
      omega
    · intro k k' hkk hk'
      have hb := ramp_offset_bounds delta width k k' hkk hk'
      rw [tdiv_mul_natCast, tdiv_mul_natCast]
      generalize k * delta / width = x at hb ⊢
      generalize k' * delta / width = y at hb ⊢
      constructor
      · intro _; omega
      · intro h; omega
  · have h8 : int8 delta = -((256 - delta : Nat) : Int) := by
      unfold int8; rw [if_neg hlt]; omega
    rw [h8]
    constructor
    · obtain ⟨r', hr', hk⟩ := interpolate_closed_neg r width c F delta hc hw1 hw (by omega) hd
      refine ⟨r', hr', ?_⟩
      intro k hk1 hk2
      rw [hk k hk1 hk2, tdiv_mul_neg_natCast]
      rfl
    · intro k k' hkk hk'
      have hb := ramp_offset_bounds (256 - delta) width k k' hkk hk'
      rw [tdiv_mul_neg_natCast, tdiv_mul_neg_natCast]
      generalize k * (256 - delta) / width = x at hb ⊢
      generalize k' * (256 - delta) / width = y at hb ⊢
      constructor
      · intro h; omega
      · intro _; omega

theorem interpolate_closed_form_witness :
    (∃ r', sampleRender.interpolate 7 169 15 226 = .ok r' ∧
      ∀ k : Nat, 1 ≤ k → k < 7 →
        ((r'.Read 169 ((15 + k) % 256) : Nat) : Int)
          = ((sampleRender.Read 169 15 : Int) + ((k : Int) * int8 226).tdiv ((7 : Nat) : Int))
            % 256) ∧
    (∀ k k' : Nat, k ≤ k' → k' ≤ 7 →
      (0 ≤ int8 226 →
        0 ≤ ((k : Int) * int8 226).tdiv ((7 : Nat) : Int) ∧
        ((k : Int) * int8 226).tdiv ((7 : Nat) : Int)
          ≤ ((k' : Int) * int8 226).tdiv ((7 : Nat) : Int) ∧
        ((k' : Int) * int8 226).tdiv ((7 : Nat) : Int) ≤ int8 226) ∧
      (int8 226 < 0 →
        int8 226 ≤ ((k' : Int) * int8 226).tdiv ((7 : Nat) : Int) ∧
        ((k' : Int) * int8 226).tdiv ((7 : Nat) : Int)
          ≤ ((k : Int) * int8 226).tdiv ((7 : Nat) : Int) ∧
        ((k : Int) * int8 226).tdiv ((7 : Nat) : Int) ≤ 0)) :=
  interpolate_closed_form sampleRender 7 169 15 226 (by decide) (by decide) (by decide)
    (by decide) (Or.inl (by decide))

theorem intErrorStep_lt (w rem e : Nat) (hw : w ≤ 255) (hr : rem < w) (he : e < w) :
    intErrorStep w rem e < w := by
  unfold intErrorStep
  split_ifs with h <;> omega

/-- C18: for every width from 1 to 255 the 8-bit error accumulator of
`interpolate` is below the width after every step (each step of the loop
hands `intErrorStep` of the accumulator to the next).  Beyond width 128 it is
no longer the exact remainder: with width 129, which the range guard admits,
and delta -128 (byte 128) the second addition `128 + 128` wraps to 0 where the
exact remainder is 127, no correction is applied, and frame `F+2` receives the
start value where the closed form `base + trunc(2*delta/width)` gives
`base - 1`. -/
theorem intError_bounded_inexact_at_129 (r : Render) (c F : Nat)
    (hc : 168 ≤ c ∧ c ≤ 174) :
    (∀ w rem : Nat, 1 ≤ w → w ≤ 255 → rem < w →
      (∀ e, e < w → intErrorStep w rem e < w) ∧
      (∀ n, (intErrorStep w rem)^[n] 0 < w) ∧
      ∀ (sign : Bool) (div n e frame val : Nat) (s : Render),
        interpolate.loop w c sign rem div (n + 1) e frame val s
          = interpolate.loop w c sign rem div n (intErrorStep w rem e)
              ((frame + 1) % 256) ((valStep w sign rem e val + div) % 256)
              (s.Write c ((frame + 1) % 256) (valStep w sign rem e val))) ∧
    rangeGuard 129 = true ∧
    byteOfInt (abs (int8 128)) % 129 = 128 ∧
    intErrorStep 129 128 0 = 128 ∧ intErrorStep 129 128 128 = 0 ∧ (2 * 128) % 129 = 127 ∧
    (∃ r', r.interpolate 129 c F 128 = .ok r' ∧
      r'.Read c ((F + 2) % 256) = r.Read c F % 256) ∧
    ((2 : Int) * int8 128).tdiv ((129 : Nat) : Int) = -1 ∧
    ((r.Read c F : Int) + ((2 : Int) * int8 128).tdiv ((129 : Nat) : Int)) % 256
      ≠ ((r.Read c F % 256 : Nat) : Int) := by
  have htd : ((2 : Int) * int8 128).tdiv ((129 : Nat) : Int) = -1 := by decide
  refine ⟨?_, by decide, by decide, by decide, by decide, by decide, ?_, htd, ?_⟩
  · intro w rem hw1 hw hr
    have hstep : ∀ e, e < w → intErrorStep w rem e < w :=
      fun e he => intErrorStep_lt w rem e hw hr he
    refine ⟨hstep, ?_, ?_⟩
    · intro n
      induction n with
      | zero => exact hw1
      | succ n ih =>
        rw [Function.iterate_succ_apply']
        exact hstep _ ih
    · intro sign div n e frame val s
      exact loop_succ_eq w c sign rem div n e frame val s
  · refine ⟨_, interpolate_eq_ok r 129 c F 128 (by decide), ?_⟩
    have hsign : decide (int8 128 < 0) = true := by decide
    have hrem : byteOfInt (abs (int8 128)) % 129 = 128 := by decide
    have hdiv : byteOfInt ((int8 128).tdiv ((129 : Nat) : Int)) = 0 := by decide
    rw [hsign, hrem, hdiv]
    show (interpolate.loop 129 c true 128 0 (126 + 1 + 1) 0 F ((r.Read c F + 0) % 256) r).Read c
      ((F + 2) % 256) = r.Read c F % 256
    rw [loop_succ_eq, loop_succ_eq]
    have e1 : intErrorStep 129 128 0 = 128 := by decide
    have v1 : ∀ v, valStep 129 true 128 0 v = v := fun v => by
      unfold valStep
      rw [if_neg (by decide)]
    have v2 : ∀ v, valStep 129 true 128 128 v = v := fun v => by
      unfold valStep
      rw [if_neg (by decide)]
    rw [e1, v1, v2]
    rw [loop_Read_outside, Read_Write_self _ _ _ _ _ hc]
    · have e : (F + 2) % 256 = ((F + 1) % 256 + 1) % 256 := by omega
      rw [if_pos e]
      omega
    · intro k hk1 hk2
      omega
  · rw [htd]
    omega

theorem intError_bounded_inexact_at_129_witness :
    ∃ r', sampleRender.interpolate 129 169 0 128 = .ok r' ∧
      r'.Read 169 ((0 + 2) % 256) = sampleRender.Read 169 0 % 256 ∧
      ((sampleRender.Read 169 0 : Int) + ((2 : Int) * int8 128).tdiv ((129 : Nat) : Int)) % 256
        ≠ ((sampleRender.Read 169 0 % 256 : Nat) : Int) := by
  have h := intError_bounded_inexact_at_129 sampleRender 169 0 (by decide)
  obtain ⟨r', h1, h2⟩ := h.2.2.2.2.2.2.1
  exact ⟨r', h1, h2, h.2.2.2.2.2.2.2.2⟩

theorem interpolate_Read_window (ra rb ra' rb' : Render) (width c F delta : Nat)
    (hc : 168 ≤ c ∧ c ≤ 174)
    (ha : ra.interpolate width c F delta = .ok ra')
    (hb : rb.interpolate width c F delta = .ok rb')
    (hbase : ra.Read c F = rb.Read c F) :
    ∀ k, 1 ≤ k → k < width → ra'.Read c ((F + k) % 256) = rb'.Read c ((F + k) % 256) := by
  intro k hk1 hk2
  have hw : 1 ≤ width := by omega
  rw [interpolate_eq_ok ra width c F delta hw] at ha
  rw [interpolate_eq_ok rb width c F delta hw] at hb
  cases ha
  cases hb
  rw [hbase]
  exact loop_Read_window _ _ _ _ _ hc _ _ _ _ _ _ k hk1 (by omega)

theorem interpolate_closed_int (r r' : Render) (width c F delta : Nat)
    (hc : 168 ≤ c ∧ c ≤ 174) (hw1 : 1 ≤ width) (hw : width ≤ 128) (hd : delta < 256)
    (hcase : int8 delta < 0 ∨
      (0 ≤ int8 delta ∧ 1 ≤ r.Read c F ∧ (r.Read c F : Int) + int8 delta ≤ 255))
    (h : r.interpolate width c F delta = .ok r') :
    ∀ k : Nat, 1 ≤ k → k < width →
      ((r'.Read c ((F + k) % 256) : Nat) : Int)
        = ((r.Read c F : Int) + ((k : Int) * int8 delta).tdiv (width : Int)) % 256 := by
  intro k hk1 hk2
  by_cases hlt : delta < 128
  · have h8 : int8 delta = (delta : Int) := by unfold int8; rw [if_pos hlt]
    rw [h8] at hcase ⊢
    have hB : 1 ≤ r.Read c F ∧ r.Read c F + delta ≤ 255 := by
      rcases hcase with h | ⟨_, h1, h2⟩
      · omega
      · exact ⟨h1, by omega⟩
    obtain ⟨r'', hr'', hk⟩ := interpolate_closed_pos r width c F delta hc hw1 hw hlt hB.1 hB.2
    rw [h] at hr''
    cases hr''
    rw [hk k hk1 hk2, tdiv_mul_natCast]
    have hb := (ramp_offset_bounds delta width k k (le_refl k) (by omega)).2
    generalize k * delta / width = x at hb ⊢
    omega
  · have h8 : int8 delta = -((256 - delta : Nat) : Int) := by
      unfold int8; rw [if_neg hlt]; omega
    rw [h8]
    obtain ⟨r'', hr'', hk⟩ := interpolate_closed_neg r width c F delta hc hw1 hw (by omega) hd
    rw [h] at hr''
    cases hr''
    rw [hk k hk1 hk2, tdiv_mul_neg_natCast]
    rfl

/-- C2: at a boundary whose two phonemes have the same blend rank,
`phase1 = outBlendLength[phoneme]` and `phase2 = outBlendLength[next_phoneme]`,
and the transition width of the boundary is their 8-bit sum
`width = (phase1 + phase2) % 256`: the pass through the loop body tests the
range guard on `width` and, when it passes, runs the pitch ramp and the six
formant ramps with `width`, from the start frame `elapsed - phase1`.  So a
width outside 2..129 leaves the store as it was, and otherwise (the pitch ramp
not panicking) each formant channel ends as `interpolate` with this `width`
leaves it. -/
theorem blendPhases_equal_rank (T : BlendTables) (s : Locals)
    (phoneme next_phoneme rank phase1 phase2 width : Nat)
    (hcur : s.r.PhonemeIndexOutput[s.pos]? = some phoneme)
    (hnext : s.r.PhonemeIndexOutput[(s.pos + 1) % 256]? = some next_phoneme)
    (hend : next_phoneme ≠ PhonemeEnd)
    (hrank : T.blendRank[phoneme]? = some rank)
    (hrank' : T.blendRank[next_phoneme]? = some rank)
    (hout : T.outBlendLength[phoneme]? = some phase1)
    (hout' : T.outBlendLength[next_phoneme]? = some phase2)
    (hwidth : width = (phase1 + phase2) % 256) :
    blendPhases T phoneme next_phoneme = .ok (phase1, phase2) ∧
    body T s = (blend s phase1 phase2).map some ∧
    body T s =
      (index s.r.PhonemeLengthOutput s.pos).bind (fun len =>
        if rangeGuard width = true then
          (s.r.interpolate_pitch width s.pos ((s.mem49 + len) % 256)
            (((s.mem49 + len) % 256 + 256 - phase1) % 256)).bind (fun r1 =>
          (formants width (((s.mem49 + len) % 256 + phase2) % 256)
            (((s.mem49 + len) % 256 + 256 - phase1) % 256) formantTables r1).bind (fun r2 =>
          .ok (some { r := r2, mem49 := (s.mem49 + len) % 256, pos := (s.pos + 1) % 256 })))
        else
          .ok (some { r := s.r, mem49 := (s.mem49 + len) % 256, pos := (s.pos + 1) % 256 })) ∧
    (∀ len, s.r.PhonemeLengthOutput[s.pos]? = some len → ¬ (2 ≤ width ∧ width ≤ 129) →
      body T s
        = .ok (some { r := s.r, mem49 := (s.mem49 + len) % 256, pos := (s.pos + 1) % 256 })) ∧
    (∀ len len' c, s.r.PhonemeLengthOutput[s.pos]? = some len →
      s.r.PhonemeLengthOutput[(s.pos + 1) % 256]? = some len' →
      (len / 2 + len' / 2) % 256 ≠ 0 → 2 ≤ width ∧ width ≤ 129 → 169 ≤ c ∧ c ≤ 174 →
      ∃ s' ri, body T s = .ok (some s') ∧
        s.r.interpolate width c (((s.mem49 + len) % 256 + 256 - phase1) % 256)
          ((s.r.Read c (((s.mem49 + len) % 256 + phase2) % 256) + 256
            - s.r.Read c (((s.mem49 + len) % 256 + 256 - phase1) % 256)) % 256) = .ok ri ∧
        ∀ Z, s'.r.Read c Z = ri.Read c Z) := by
  have hp := blendPhases_of_equal_rank T phoneme next_phoneme rank phase1 phase2
    hrank hrank' hout hout'
  have hbody := body_of_boundary T s phoneme next_phoneme phase1 phase2 hcur hnext hend hp
  have hwlt : width < 256 := by omega
  refine ⟨hp, hbody, ?_, ?_, ?_⟩
  · rw [hbody]
    unfold blend
    rw [← hwidth]
    cases h1 : index s.r.PhonemeLengthOutput s.pos with
    | error e => rfl
    | ok len =>
      simp only [bind, Except.bind, pure, Except.pure]
      by_cases hg : rangeGuard width = true
      · simp only [hg, if_true]
        cases h2 : s.r.interpolate_pitch width s.pos ((s.mem49 + len) % 256)
            (((s.mem49 + len) % 256 + 256 - phase1) % 256) with
        | error e => rfl
        | ok r1 =>
          simp only []
          cases h3 : formants width (((s.mem49 + len) % 256 + phase2) % 256)
              (((s.mem49 + len) % 256 + 256 - phase1) % 256) formantTables r1 with
          | error e => rfl
          | ok r2 => rfl
      · simp only [hg, if_false]
        rfl
  · intro len hlen hw
    have hg : rangeGuard ((phase1 + phase2) % 256) = false := by
      rw [← hwidth]
      cases hgv : rangeGuard width with
      | false => rfl
      | true => exact absurd ((rangeGuard_iff_aux width hwlt).1 hgv) hw
    rw [hbody, blend_of_guard_false s phase1 phase2 len hlen hg]
    rfl
  · intro len len' c hlen hlen' hpitch hw hc
    obtain ⟨s', hs', _, _, _, _, _, hch⟩ := boundary_pass T s phoneme next_phoneme phase1 phase2
      len len' ((s.mem49 + len) % 256) (((s.mem49 + len) % 256 + 256 - phase1) % 256)
      (((s.mem49 + len) % 256 + phase2) % 256) width hcur hnext hend hp hlen hlen' hpitch
      rfl rfl rfl hwidth ((rangeGuard_iff_aux width hwlt).2 hw)
    obtain ⟨ri, hri, hZ⟩ := hch c hc
    exact ⟨s', ri, hs', hri, hZ⟩

theorem blendPhases_equal_rank_witness :
    blendPhases sampleTables 0 1 = .ok (2, 3) ∧
    body sampleTables { r := sampleRender, mem49 := 0, pos := 0 }
      = (blend { r := sampleRender, mem49 := 0, pos := 0 } 2 3).map some ∧
    ∃ s', body sampleTables { r := sampleRender, mem49 := 0, pos := 0 } = .ok (some s') ∧
      s'.mem49 = 10 ∧ s'.pos = 1 ∧
      s'.r.frequency1 8 = 20 ∧ s'.r.frequency1 9 = 28 ∧ s'.r.frequency1 10 = 36 ∧
      s'.r.frequency1 11 = 44 ∧ s'.r.frequency1 12 = 52 ∧ s'.r.frequency1 13 = 60 :=
  have h := blendPhases_equal_rank sampleTables { r := sampleRender, mem49 := 0, pos := 0 }
    0 1 5 2 3 5 rfl rfl (by decide) rfl rfl rfl rfl rfl
  ⟨h.1, h.2.1, ⟨_, rfl, rfl, rfl, rfl, rfl, rfl, rfl, rfl, rfl⟩⟩

/-- C9 (counterexample): two phonemes of length 1 with equal ranks and
out-blend lengths 2 and 3.  The boundary has the transition width 5, which
passes the range guard, but the pitch ramp comes first and its width is
`1/2 + 1/2 = 0`: the pass through the loop body panics with a division by
zero, so it returns no store and no formant channel is ramped. -/
theorem body_short_phonemes_no_formant_ramp :
    blendPhases sampleTables 0 1 = .ok (2, 3) ∧
    rangeGuard ((2 + 3) % 256) = true ∧
    body sampleTables { r := shortPhonemes, mem49 := 0, pos := 0 } = .error .divideByZero ∧
    ¬ ∃ s', body sampleTables { r := shortPhonemes, mem49 := 0, pos := 0 } = .ok (some s') := by
  refine ⟨rfl, rfl, rfl, ?_⟩
  rintro ⟨s', hs'⟩
  have hb : body sampleTables { r := shortPhonemes, mem49 := 0, pos := 0 }
      = .error .divideByZero := rfl
  rw [hb] at hs'
  cases hs'

/-- C11: three phonemes of one blend rank, of lengths 10, 8 and 12 and
out-blend lengths 2, 3 and 4, followed by the sentinel.  With fuel for three
entries of the loop body the call returns 30 after two passes.  Every formant
channel `c` ends as two ramps leave it: `interpolate` with width 5 from frame 8
and then with width 7 from frame 15, the deltas being read from the store
before the call.  Frames 9..12 and 16..21 of `c` are written: what they hold
afterwards depends on the store only through the values of `c` at frames 8,
13, 15 and 22, and it is `base + trunc(k*delta/width)` mod 256 when the delta
is negative, or non-negative with `base >= 1` and `base + delta <= 255`.
Every other frame of `c` keeps its value. -/
theorem CreateTransitions_three_phonemes (T : BlendTables) (r : Render)
    (p0 p1 p2 rank fuel c : Nat)
    (hi0 : r.PhonemeIndexOutput[0]? = some p0)
    (hi1 : r.PhonemeIndexOutput[1]? = some p1)
    (hi2 : r.PhonemeIndexOutput[2]? = some p2)
    (hi3 : r.PhonemeIndexOutput[3]? = some PhonemeEnd)
    (hp1 : p1 ≠ PhonemeEnd) (hp2 : p2 ≠ PhonemeEnd)
    (hl0 : r.PhonemeLengthOutput[0]? = some 10)
    (hl1 : r.PhonemeLengthOutput[1]? = some 8)
    (hl2 : r.PhonemeLengthOutput[2]? = some 12)
    (hr0 : T.blendRank[p0]? = some rank)
    (hr1 : T.blendRank[p1]? = some rank)
    (hr2 : T.blendRank[p2]? = some rank)
    (ho0 : T.outBlendLength[p0]? = some 2)
    (ho1 : T.outBlendLength[p1]? = some 3)
    (ho2 : T.outBlendLength[p2]? = some 4)
    (hfuel : 3 ≤ fuel)
    (hc : 169 ≤ c ∧ c ≤ 174) :
    ∃ f r1 r2, r.CreateTransitions T fuel = .ok f ∧ f.total = 30 ∧ f.pos = 2 ∧
      r.interpolate 5 c 8 ((r.Read c 13 + 256 - r.Read c 8) % 256) = .ok r1 ∧
      r1.interpolate 7 c 15 ((r.Read c 22 + 256 - r.Read c 15) % 256) = .ok r2 ∧
      (∀ Z, f.r.Read c Z = r2.Read c Z) ∧
      (∀ Z, ¬ (9 ≤ Z ∧ Z ≤ 12) → ¬ (16 ≤ Z ∧ Z ≤ 21) → f.r.Read c Z = r.Read c Z) ∧
      (∀ ra : Render, ra.PhonemeIndexOutput = r.PhonemeIndexOutput →
        ra.PhonemeLengthOutput = r.PhonemeLengthOutput →
        ra.Read c 8 = r.Read c 8 → ra.Read c 13 = r.Read c 13 →
        ra.Read c 15 = r.Read c 15 → ra.Read c 22 = r.Read c 22 →
        ∃ fa, ra.CreateTransitions T fuel = .ok fa ∧
          ∀ Z, (9 ≤ Z ∧ Z ≤ 12) ∨ (16 ≤ Z ∧ Z ≤ 21) → fa.r.Read c Z = f.r.Read c Z) ∧
      ((int8 ((r.Read c 13 + 256 - r.Read c 8) % 256) < 0 ∨
          (0 ≤ int8 ((r.Read c 13 + 256 - r.Read c 8) % 256) ∧ 1 ≤ r.Read c 8 ∧
            (r.Read c 8 : Int) + int8 ((r.Read c 13 + 256 - r.Read c 8) % 256) ≤ 255)) →
        ∀ k : Nat, 1 ≤ k → k ≤ 4 →
          ((f.r.Read c (8 + k) : Nat) : Int)
            = ((r.Read c 8 : Int)
                + ((k : Int) * int8 ((r.Read c 13 + 256 - r.Read c 8) % 256)).tdiv
                    ((5 : Nat) : Int)) % 256) ∧
      ((int8 ((r.Read c 22 + 256 - r.Read c 15) % 256) < 0 ∨
          (0 ≤ int8 ((r.Read c 22 + 256 - r.Read c 15) % 256) ∧ 1 ≤ r.Read c 15 ∧
            (r.Read c 15 : Int) + int8 ((r.Read c 22 + 256 - r.Read c 15) % 256) ≤ 255)) →
        ∀ k : Nat, 1 ≤ k → k ≤ 6 →
          ((f.r.Read c (15 + k) : Nat) : Int)
            = ((r.Read c 15 : Int)
                + ((k : Int) * int8 ((r.Read c 22 + 256 - r.Read c 15) % 256)).tdiv
                    ((7 : Nat) : Int)) % 256) := by
  have hc' : 168 ≤ c ∧ c ≤ 174 := ⟨by omega, hc.2⟩
  obtain ⟨f, r1, r2, hrun, htot, hpos, hq1, hq2, hfin, hout⟩ :=
    three_phonemes_run T r p0 p1 p2 rank fuel c hi0 hi1 hi2 hi3 hp1 hp2 hl0 hl1 hl2
      hr0 hr1 hr2 ho0 ho1 ho2 hfuel hc
  have h1out : ∀ Z, ¬ (9 ≤ Z ∧ Z ≤ 12) → r1.Read c Z = r.Read c Z := by
    intro Z hZ
    apply interpolate_Read_outside r r1 5 c 8 _ Z hq1
    intro k h1 h2
    omega
  have h2out : ∀ Z, ¬ (16 ≤ Z ∧ Z ≤ 21) → r2.Read c Z = r1.Read c Z := by
    intro Z hZ
    apply interpolate_Read_outside r1 r2 7 c 15 _ Z hq2
    intro k h1 h2
    omega
  refine ⟨f, r1, r2, hrun, htot, hpos, hq1, hq2, hfin, hout, ?_, ?_, ?_⟩
  · intro ra hia hla h8 h13 h15 h22
    obtain ⟨fa, ra1, ra2, harun, _, _, har1, har2, hafin, _⟩ :=
      three_phonemes_run T ra p0 p1 p2 rank fuel c (by rw [hia]; exact hi0)
        (by rw [hia]; exact hi1) (by rw [hia]; exact hi2) (by rw [hia]; exact hi3) hp1 hp2
        (by rw [hla]; exact hl0) (by rw [hla]; exact hl1) (by rw [hla]; exact hl2)
        hr0 hr1 hr2 ho0 ho1 ho2 hfuel hc
    rw [h8, h13] at har1
    rw [h15, h22] at har2
    have ha1out : ∀ Z, ¬ (9 ≤ Z ∧ Z ≤ 12) → ra1.Read c Z = ra.Read c Z := by
      intro Z hZ
      apply interpolate_Read_outside ra ra1 5 c 8 _ Z har1
      intro k h1 h2
      omega
    have ha2out : ∀ Z, ¬ (16 ≤ Z ∧ Z ≤ 21) → ra2.Read c Z = ra1.Read c Z := by
      intro Z hZ
      apply interpolate_Read_outside ra1 ra2 7 c 15 _ Z har2
      intro k h1 h2
      omega
    refine ⟨fa, harun, ?_⟩
    intro Z hZ
    rw [hafin Z, hfin Z]
    rcases hZ with hZ | hZ
    · rw [ha2out Z (by omega), h2out Z (by omega)]
      have hw := interpolate_Read_window ra r ra1 r1 5 c 8 _ hc' har1 hq1 h8 (Z - 8)
        (by omega) (by omega)
      have e : (8 + (Z - 8)) % 256 = Z := by omega
      rw [e] at hw
      exact hw
    · have hbase : ra1.Read c 15 = r1.Read c 15 := by
        rw [ha1out 15 (by omega), h1out 15 (by omega), h15]
      have hw := interpolate_Read_window ra1 r1 ra2 r2 7 c 15 _ hc' har2 hq2 hbase (Z - 15)
        (by omega) (by omega)
      have e : (15 + (Z - 15)) % 256 = Z := by omega
      rw [e] at hw
      exact hw
  · intro hcase k hk1 hk2
    have h := interpolate_closed_int r r1 5 c 8 ((r.Read c 13 + 256 - r.Read c 8) % 256) hc'
      (by decide) (by decide) (Nat.mod_lt _ (by decide)) hcase hq1 k hk1 (by omega)
    have e : (8 + k) % 256 = 8 + k := by omega
    rw [e] at h
    rw [hfin, h2out (8 + k) (by omega)]
    exact h
  · intro hcase k hk1 hk2
    have hb : r1.Read c 15 = r.Read c 15 := h1out 15 (by omega)
    have h := interpolate_closed_int r1 r2 7 c 15 ((r.Read c 22 + 256 - r.Read c 15) % 256) hc'
      (by decide) (by decide) (Nat.mod_lt _ (by decide)) (by rw [hb]; exact hcase) hq2 k hk1
      (by omega)
    have e : (15 + k) % 256 = 15 + k := by omega
    rw [e, hb] at h
    rw [hfin]
    exact h

theorem CreateTransitions_three_phonemes_witness :
    ∃ f, sampleRender.CreateTransitions sampleTables 3 = .ok f ∧ f.total = 30 ∧ f.pos = 2 ∧
      f.r.frequency1 8 = 20 ∧ f.r.frequency1 9 = 28 ∧ f.r.frequency1 10 = 36 ∧
      f.r.frequency1 11 = 44 ∧ f.r.frequency1 12 = 52 ∧ f.r.frequency1 13 = 60 ∧
      f.r.frequency1 15 = 60 ∧ f.r.frequency1 16 = 56 ∧ f.r.frequency1 17 = 52 ∧
      f.r.frequency1 18 = 48 ∧ f.r.frequency1 19 = 43 ∧ f.r.frequency1 20 = 39 ∧
      f.r.frequency1 21 = 35 ∧ f.r.frequency1 22 = 30 ∧
      (∀ Z, ¬ (9 ≤ Z ∧ Z ≤ 12) → ¬ (16 ≤ Z ∧ Z ≤ 21) →
        f.r.Read 169 Z = sampleRender.Read 169 Z) ∧
      (∀ k : Nat, 1 ≤ k → k ≤ 6 →
        ((f.r.Read 169 (15 + k) : Nat) : Int)
          = ((sampleRender.Read 169 15 : Int)
              + ((k : Int) * int8 ((sampleRender.Read 169 22 + 256
                  - sampleRender.Read 169 15) % 256)).tdiv ((7 : Nat) : Int)) % 256) := by
  obtain ⟨f, _, _, hrun, htot, hpos, _, _, _, hout, _, _, h2⟩ :=
    CreateTransitions_three_phonemes sampleTables sampleRender 0 1 2 5 3 169
      rfl rfl rfl rfl (by decide) (by decide) rfl rfl rfl rfl rfl rfl rfl rfl rfl
      (by decide) (by decide)
  have hrun' : ∃ g, sampleRender.CreateTransitions sampleTables 3 = .ok g ∧
      g.r.frequency1 8 = 20 ∧ g.r.frequency1 9 = 28 ∧ g.r.frequency1 10 = 36 ∧
      g.r.frequency1 11 = 44 ∧ g.r.frequency1 12 = 52 ∧ g.r.frequency1 13 = 60 ∧
      g.r.frequency1 15 = 60 ∧ g.r.frequency1 16 = 56 ∧ g.r.frequency1 17 = 52 ∧
      g.r.frequency1 18 = 48 ∧ g.r.frequency1 19 = 43 ∧ g.r.frequency1 20 = 39 ∧
      g.r.frequency1 21 = 35 ∧ g.r.frequency1 22 = 30 :=
    ⟨_, rfl, rfl, rfl, rfl, rfl, rfl, rfl, rfl, rfl, rfl, rfl, rfl, rfl, rfl, rfl⟩
  obtain ⟨g, hg, hvals⟩ := hrun'
  rw [hrun] at hg
  cases hg
  exact ⟨f, hrun, htot, hpos, hvals.1, hvals.2.1, hvals.2.2.1, hvals.2.2.2.1, hvals.2.2.2.2.1,
    hvals.2.2.2.2.2.1, hvals.2.2.2.2.2.2.1, hvals.2.2.2.2.2.2.2.1, hvals.2.2.2.2.2.2.2.2.1,
    hvals.2.2.2.2.2.2.2.2.2.1, hvals.2.2.2.2.2.2.2.2.2.2.1, hvals.2.2.2.2.2.2.2.2.2.2.2.1,
    hvals.2.2.2.2.2.2.2.2.2.2.2.2.1, hvals.2.2.2.2.2.2.2.2.2.2.2.2.2, hout,
    h2 (Or.inl (by decide))⟩

end Sam
